import Mathlib

/-!
Shallow embedding of the report-parsing and tabularization engine of
`tools_etl.py`: the value formatters, the header classifier
(`_feels_like_header`), the multi-table extractor (`_parse_multi_table_csv`),
the single-table streaming parser (`_parse_single_table_csv`) and the
profile/setting join inside `export_ppm_data`.

Python `dict`s (insertion-ordered, unique keys) are modelled as association
lists whose insert operation replaces in place; Python `float` arithmetic in
the aggregation path is modelled by exact rationals (`ℚ`); the numeric parse
`float(s)` is kept as an explicit parameter `pf : String → Option ℚ` where a
`none` result models a `ValueError`.  Python string operations are modelled
by structurally recursive functions over the character list `s.data`, so that
every definition evaluates inside the kernel.
-/

namespace ToolsEtl

/-! ### Python dict and string primitives -/

/-- Lookup in an insertion-ordered dict: Python `d.get(k)`. -/
def dget {α β : Type} [DecidableEq α] (d : List (α × β)) (k : α) : Option β :=
  (d.find? (fun p => p.1 = k)).map (fun p => p.2)

/-- Python `d[k] = v` on an insertion-ordered dict: replace in place when the
key is present, append otherwise. -/
def dins {α β : Type} [DecidableEq α] (d : List (α × β)) (k : α) (v : β) :
    List (α × β) :=
  if d.any (fun p => p.1 = k) then
    d.map (fun p => if p.1 = k then (k, v) else p)
  else d ++ [(k, v)]

/-- Python `dict(pairs)` (also a dict comprehension over `pairs`): fold the
pairs into an empty dict, later duplicates overwriting earlier ones. -/
def dictOfPairs {α β : Type} [DecidableEq α] (ps : List (α × β)) :
    List (α × β) :=
  ps.foldl (fun d p => dins d p.1 p.2) []

/-- Python `{**a, **b}`: copy `a`, then write every item of `b` over it. -/
def dunion {α β : Type} [DecidableEq α] (a b : List (α × β)) : List (α × β) :=
  b.foldl (fun d p => dins d p.1 p.2) a

/-- ASCII lower-casing of one character (what `str.lower` / `re.IGNORECASE`
do on the ASCII unit endings the classifier cares about). -/
def lowerChar (c : Char) : Char :=
  if 65 ≤ c.toNat ∧ c.toNat ≤ 90 then Char.ofNat (c.toNat + 32) else c

/-- Python whitespace (the characters `str.split()` / `str.strip()` split on). -/
def isWs (c : Char) : Bool :=
  c == ' ' || c == '\t' || c == '\n' || c == '\r' || c == '\x0b' || c == '\x0c'

/-- Split a character list at every separator character recognised by `p`,
keeping empty chunks — Python `s.split(sep)` for a one-character `sep`. -/
def splitPred (p : Char → Bool) : List Char → List (List Char)
  | [] => [[]]
  | c :: cs =>
    if p c then [] :: splitPred p cs
    else
      match splitPred p cs with
      | t :: ts => (c :: t) :: ts
      | [] => [[c]]

/-- Split at the first occurrence of `sep`, returning the parts before and
after it, or `none` when `sep` does not occur — Python `sep in s` plus
`s.split(sep)[0]`. -/
def splitFirst (sep : List Char) : List Char → Option (List Char × List Char)
  | [] => none
  | c :: cs =>
    if sep.isPrefixOf (c :: cs) then some ([], (c :: cs).drop sep.length)
    else
      match splitFirst sep cs with
      | some (pre, post) => some (c :: pre, post)
      | none => none

/-- Python `s.strip()`: drop leading and trailing whitespace. -/
def trimChars (cs : List Char) : List Char :=
  ((cs.dropWhile isWs).reverse.dropWhile isWs).reverse

/-- Python `s.strip()` on a string. -/
def pyStrip (s : String) : String := String.mk (trimChars s.data)

/-- Python `s.split(",")`. -/
def splitComma (s : String) : List String :=
  (splitPred (fun c => c == ',') s.data).map String.mk

/-- Python `"," in s`. -/
def containsComma (s : String) : Bool := s.data.any (fun c => c == ',')

/-- Python `s.split()`: split on whitespace runs, dropping empty tokens. -/
def pySplit (s : String) : List String :=
  ((splitPred isWs s.data).filter (fun t => !t.isEmpty)).map String.mk

/-! ### Value formatters and the header classifier -/

/-- One character of the regex class `[\d.]`. -/
def isBodyChar (c : Char) : Bool := c.isDigit || c == '.'

/-- The test `re.match(r"^-?[\d.]+(%|ms|us|ns|s|min)?$", val, re.IGNORECASE)`
performed by `_feels_like_header` on each field: an optional leading minus, a
nonempty run of digits/dots, and an optional unit ending drawn from
`%, ms, us, ns, s, min`.  Case-insensitivity only affects the letter endings,
which is captured by lower-casing before comparing; the regex matches exactly
when some choice of ending makes the decomposition work. -/
def isNumericLike (val : String) : Bool :=
  let t := match val.data with
    | '-' :: rest => rest
    | cs => cs
  let tl := t.map lowerChar
  (["", "%", "ms", "us", "ns", "s", "min"].map String.data).any (fun u =>
    u.isSuffixOf tl &&
    (let body := tl.take (tl.length - u.length)
     !body.isEmpty && body.all isBodyChar))

/-- `_feels_like_header(fields)`: an empty field list is not a header; any
non-empty field that looks numeric/duration-like makes the row data, not a
header; empty fields are skipped; otherwise the row is a header. -/
def _feels_like_header (fields : List String) : Bool :=
  if fields = [] then false
  else fields.all (fun val => if val = "" then true else !(isNumericLike val))

/-- `_format_setting_value(val)`: decode a `<length> <byte> <byte> ...`
hex-byte sequence (little-endian) into one `0x`-prefixed big-endian scalar.
Fewer than 2 whitespace-separated tokens: return the input unchanged.  More
than 4 byte tokens after dropping the length token: keep only the first 4.
Then reverse the byte tokens and concatenate behind `0x`. -/
def _format_setting_value (val : String) : String :=
  let parts := pySplit val
  if parts.length < 2 then val
  else
    let data0 := parts.drop 1
    let data1 := if data0.length > 4 then data0.take 4 else data0
    "0x" ++ String.join data1.reverse

/-- `decode_setting_value` as the specification words it: split on whitespace;
with fewer than 2 tokens return the input unchanged; otherwise drop the first
(length) token, truncate the byte tokens to the first 4, reverse them, and
concatenate behind `0x`.  (Stated from the spec's words, to be compared with
the source function `_format_setting_value`.) -/
def decode_setting_value_spec (val : String) : String :=
  let toks := pySplit val
  if toks.length < 2 then val
  else "0x" ++ String.join (((toks.drop 1).take 4).reverse)

/-- `_format_process_name(val)`: drop the trailing `" (<pid>)"` part, i.e.
keep everything before the first occurrence of `" ("`. -/
def _format_process_name (val : String) : String :=
  match splitFirst [' ', '('] val.data with
  | some (pre, _) => String.mk pre
  | none => val

/-! ### Rows and the profile/setting join of `export_ppm_data` -/

/-- A row as produced by the CSV parsers: an insertion-ordered dict from
column name to string value. -/
abbrev Row := List (String × String)

/-- The `key → row` lookup built at the top of the join in `export_ppm_data`
(`profiles_map = {p.get('ProfileId'): p for p in profilerundown_data}`), with
the key column generalised to `key`; a row missing the key column yields the
Python key `None`, modelled by `none`. -/
def profilesMapOn (key : String) (left : List Row) :
    List (Option String × Row) :=
  left.foldl (fun m p => dins m (dget p key) p) []

/-- The join loop of `export_ppm_data` (the `for setting in
profilesettingrundown_data` loop), with the key column generalised to `key`:
one output row per right-table (setting) row, in order; a right row whose key
is present in the lookup is merged over the matched left (profile) row as
`{**profile, **setting}`; otherwise the right row is kept as is. -/
def joinOnKey (key : String) (left right : List Row) : List Row :=
  let pm := profilesMapOn key left
  right.map (fun setting =>
    match dget pm (dget setting key) with
    | some profile => dunion profile setting
    | none => setting)

/-- The join exactly as `export_ppm_data` performs it: on column
`"ProfileId"`. -/
def export_ppm_data_join (profilerundown_data profilesettingrundown_data :
    List Row) : List Row :=
  joinOnKey "ProfileId" profilerundown_data profilesettingrundown_data

/-! ### The multi-table extractor `_parse_multi_table_csv` -/

/-- Decimal digits of `n` (most significant first), structurally recursive on
a fuel argument so that it evaluates inside the kernel; `n + 1` fuel always
suffices. -/
def natDigitsAux : Nat → Nat → List Char
  | 0, _ => []
  | fuel + 1, n =>
    if n < 10 then [Nat.digitChar n]
    else natDigitsAux fuel (n / 10) ++ [Nat.digitChar (n % 10)]

/-- Python `f"{title}_{count}"`: the title, an underscore, and the decimal
rendering of `count`. -/
def pyFmtTitle (title : String) (count : Nat) : String :=
  String.mk (title.data ++ '_' :: natDigitsAux (count + 1) count)

/-- The candidate titles the collision `while` loop of
`_parse_multi_table_csv` tries, in order: `title, title_1, title_2, ...`; one
more suffixed candidate than there are existing tables, which (they being
pairwise distinct) is always enough for the loop to exit. -/
def titleCandidates (n : Nat) (title : String) : List String :=
  title :: (List.range (n + 1)).map (fun c => pyFmtTitle title (c + 1))

/-- The collision loop itself: the first candidate that is not already a
table key. -/
def freshTitle (keys : List String) (title : String) : String :=
  match (titleCandidates keys.length title).find?
      (fun c => !keys.contains c) with
  | some c => c
  | none => title

/-- Fields of one delimited line: split on `","` and strip each field. -/
def splitFields (line : String) : List String :=
  (splitComma line).map pyStrip

/-- The continuation condition of the inner row loop
(`lines[j] and "," in lines[j]`): non-blank and delimiter-bearing. -/
def isDataLine (l : String) : Bool := !(l = "") && containsComma l

/-- The inner row-harvesting loop of `_parse_multi_table_csv`: walk forward
while lines are non-blank and contain the delimiter; keep each line whose
field count equals the header's as `dict(zip(fields, row_data))`; return the
harvested rows together with the remaining lines (the `i = j` jump). -/
def scanRows (fields : List String) : List String → List Row × List String
  | [] => ([], [])
  | l :: ls =>
    if isDataLine l then
      let rd := splitFields l
      let s := scanRows fields ls
      if rd.length = fields.length then
        (dictOfPairs (fields.zip rd) :: s.1, s.2)
      else (s.1, s.2)
    else ([], l :: ls)

/-- Python `current_title or "Unnamed Table"`: `None` and the empty string
are falsy. -/
def pyOr (x : Option String) (y : String) : String :=
  match x with
  | some s => if s = "" then y else s
  | none => y

/-- The metadata branch: a delimited line that was not stored as a table and
has exactly two fields is appended to the reserved `"Metadata"` table,
creating that table on first use. -/
def metaStep (tables : List (String × List Row)) (fields : List String) :
    List (String × List Row) :=
  match fields with
  | [a, b] =>
    let t0 := if tables.any (fun p => p.1 = "Metadata") then tables
              else tables ++ [("Metadata", [])]
    dins t0 "Metadata"
      (((dget t0 "Metadata").getD []) ++
        [dictOfPairs [("Property", a), ("Value", b)]])
  | _ => tables

/-- Column renaming applied to one harvested row:
`{col_name_map.get(k, k): v for k, v in row.items()}`. -/
def mapRowKeys (cm : List (String × String)) (row : Row) : Row :=
  dictOfPairs (row.map (fun p => ((dget cm p.1).getD p.1, p.2)))

/-- The scanning loop of `_parse_multi_table_csv`, structurally recursive on
a fuel argument (every iteration consumes at least one line, so fuel equal to
the number of lines always suffices; see `parseLinesF_fuel`).  State: the
tables collected so far and the pending title. -/
def parseLinesF (cm : List (String × String)) :
    Nat → List String → List (String × List Row) → Option String →
      List (String × List Row)
  | _, [], tables, _ => tables
  | 0, _ :: _, tables, _ => tables
  | fuel + 1, line :: rest, tables, currentTitle =>
    if line = "" then parseLinesF cm fuel rest tables currentTitle
    else if containsComma line then
      let fields := splitFields line
      if _feels_like_header fields then
        let s := scanRows fields rest
        if s.1.isEmpty then
          parseLinesF cm fuel rest (metaStep tables fields) currentTitle
        else
          let rows1 := if cm.isEmpty then s.1 else s.1.map (mapRowKeys cm)
          let uniq := freshTitle (tables.map Prod.fst)
            (pyOr currentTitle "Unnamed Table")
          parseLinesF cm fuel s.2 (dins tables uniq rows1) none
      else
        parseLinesF cm fuel rest (metaStep tables fields) currentTitle
    else
      parseLinesF cm fuel rest tables (some line)

/-- The scanning loop at adequate fuel. -/
def parseLines (cm : List (String × String)) (lines : List String)
    (tables : List (String × List Row)) (currentTitle : Option String) :
    List (String × List Row) :=
  parseLinesF cm lines.length lines tables currentTitle

/-- `_parse_multi_table_csv`, over the outcome of `open(...).readlines()`:
`.error` models an `IOError` or `UnicodeDecodeError` raised there — the only
fallible operation inside the `try`, reached while `tables` is still the
empty dict, so the `except` handler's `return tables` yields the empty
collection (a missing file likewise short-circuits to `{}` before the
`try`).  On success every line is stripped and the scanning loop runs from
the initial pending title `"Metadata"`. -/
def _parse_multi_table_csv (read : Except String (List String))
    (cm : List (String × String)) : List (String × List Row) :=
  match read with
  | .error _ => []
  | .ok raw => parseLines cm (raw.map pyStrip) [] (some "Metadata")

/-! ### The single-table parser `_parse_single_table_csv` -/

/-- Values held in an output row of the single-table parser: the group
columns hold strings; the derived `"Total runtime"` column holds the rounded
number (a Python `float`, modelled as an exact rational). -/
inductive Val : Type
  | str (s : String)
  | num (q : ℚ)
deriving DecidableEq

/-- Python `str(x.get(col))` as used by the sort key: group columns hold
strings (returned as is), an absent column gives `str(None) = "None"`, and a
numeric value would be rendered by `str(float)` — that branch is only
reachable when `"Total runtime"` is itself a group-by column, which the
theorems below exclude; it is rendered via `ℚ`'s printer here. -/
def strOfVal : Option Val → String
  | some (Val.str s) => s
  | some (Val.num q) => toString q
  | none => "None"

/-- The static configuration of one parse call: the CSV header
(`reader.fieldnames`), the caller's column rename map, and the group-by
column list. -/
structure STConfig where
  fieldnames : List String
  colNameMap : List (String × String)
  groupBy : List String

/-- `inverse_col_map = {v: k for k, v in col_name_map.items()}`. -/
def inverseColMap (cm : List (String × String)) : List (String × String) :=
  cm.foldl (fun m p => dins m p.2 p.1) []

/-- `header_map = {fn.strip(): fn for fn in reader.fieldnames}`. -/
def headerMap (fns : List String) : List (String × String) :=
  fns.foldl (fun m fn => dins m (pyStrip fn) fn) []

/-- The resolved `(target column, actual CSV key)` pairs for the group-by
columns; a column that resolves to no CSV header is skipped (with a logged
warning in the source). -/
def groupKeysOf (c : STConfig) : List (String × String) :=
  c.groupBy.filterMap (fun col =>
    (dget (headerMap c.fieldnames)
        ((dget (inverseColMap c.colNameMap) col).getD col)).map
      (fun actual => (col, actual)))

/-- The actual CSV key of the designated numeric `"Runtime"` column, when it
resolves. -/
def kRuntimeOf (c : STConfig) : Option String :=
  dget (headerMap c.fieldnames)
    ((dget (inverseColMap c.colNameMap) "Runtime").getD "Runtime")

/-- One cleaned cell: fetch by the actual key, strip, then apply the
process-name and setting-value transforms exactly as the row loop does.
(`DictReader` guarantees every fieldname is a key of every row, so the
lookup is modelled total with default `""`.) -/
def cleanedValue (c : STConfig) (row : Row) (tk : String × String) : String :=
  let v0 := pyStrip ((dget row tk.2).getD "")
  let orig := (dget (inverseColMap c.colNameMap) tk.1).getD tk.1
  let v1 := if orig = "Process" then _format_process_name v0 else v0
  if tk.1 = "SettingValue" then _format_setting_value v1 else v1

/-- The GroupKey of a row: the cleaned values of the resolved group-by
columns, in order. -/
def cleanedValues (c : STConfig) (row : Row) : List String :=
  (groupKeysOf c).map (cleanedValue c row)

/-- One row's contribution to its group's running sum:
`float(runtime_str)` with `0.0` on `ValueError` (`pf` models `float`). -/
def contribution (pf : String → Option ℚ) (c : STConfig) (row : Row) : ℚ :=
  match kRuntimeOf c with
  | some k => (pf (pyStrip ((dget row k).getD ""))).getD 0
  | none => 0

/-- `summary[key] = summary.get(key, 0.0) + runtime` for one row, with the
float addition idealised as exact rational addition.  This idealisation is
order-independent where the program's IEEE accumulation is not; the faithful
float-rounding accumulator is `stepSummaryF` below, which refutes the
order-independence claim. -/
def stepSummary (pf : String → Option ℚ) (c : STConfig)
    (summary : List (List String × ℚ)) (row : Row) :
    List (List String × ℚ) :=
  dins summary (cleanedValues c row)
    ((dget summary (cleanedValues c row)).getD 0 + contribution pf c row)

/-- The aggregation accumulator after the whole stream. -/
def buildSummary (pf : String → Option ℚ) (c : STConfig) (rows : List Row) :
    List (List String × ℚ) :=
  rows.foldl (stepSummary pf c) []

/-- Round half to even (what Python `round` does), at integer precision. -/
def roundHalfEven (q : ℚ) : ℤ :=
  if q - ⌊q⌋ < 1 / 2 then ⌊q⌋
  else if q - ⌊q⌋ > 1 / 2 then ⌊q⌋ + 1
  else if ⌊q⌋ % 2 = 0 then ⌊q⌋ else ⌊q⌋ + 1

/-- Python `round(x, 6)`. -/
def round6 (q : ℚ) : ℚ := (roundHalfEven (q * 1000000) : ℚ) / 1000000

/-- One emitted aggregation row:
`{col: val for col, val in zip(group_by, key_tuple)}` followed by
`row_dict["Total runtime"] = round(total_runtime, 6)`. -/
def outputRow (c : STConfig) (key : List String) (total : ℚ) :
    List (String × Val) :=
  dins (dictOfPairs ((c.groupBy.zip key).map (fun p => (p.1, Val.str p.2))))
    "Total runtime" (Val.num (round6 total))

/-- Python `<=` on the sort-key lists (`list` comparison is lexicographic,
string comparison by code point). -/
def listLexLe : List String → List String → Bool
  | [], _ => true
  | _ :: _, [] => false
  | a :: as, b :: bs =>
    if a < b then true
    else if b < a then false
    else listLexLe as bs

/-- The sort key of an output row:
`[str(x.get(col)) for col in group_by]`. -/
def sortKeyOf (c : STConfig) (row : List (String × Val)) : List String :=
  c.groupBy.map (fun col => strOfVal (dget row col))

/-- The grouping path of `_parse_single_table_csv`: accumulate the summary
over every row, emit one row per key, and sort by the string form of the
group-by columns.  When the `"Runtime"` column does not resolve the source
raises `AttributeError` on `None.strip()` at the first row (caught: `[]`),
and with no rows the summary is empty — either way the result is `[]`.
Python's stable `list.sort` is modelled by the stable `List.mergeSort`. -/
def parseSingleGrouped (pf : String → Option ℚ) (c : STConfig)
    (rows : List Row) : List (List (String × Val)) :=
  match kRuntimeOf c with
  | none => []
  | some _ =>
    ((buildSummary pf c rows).map (fun e => outputRow c e.1 e.2)).mergeSort
      (fun x y => listLexLe (sortKeyOf c x) (sortKeyOf c y))

/-- `_parse_single_table_csv` over the parsed CSV content: `fieldnames` from
`reader.fieldnames`, `rows` the `DictReader` row dicts, `pf` the numeric
parse.  `group_by = none` maps every row through renaming and the cell
transforms without aggregation; a non-`none` `group_by` aggregates. -/
def _parse_single_table_csv (pf : String → Option ℚ)
    (fieldnames : List String) (rows : List Row)
    (group_by : Option (List String)) (cm : List (String × String)) :
    List (List (String × Val)) :=
  match group_by with
  | none =>
    rows.map (fun row =>
      dictOfPairs (fieldnames.map (fun fn =>
        let target := (dget cm (pyStrip fn)).getD (pyStrip fn)
        (target, Val.str (cleanedValue ⟨fieldnames, cm, []⟩ row
          (target, fn))))))
  | some gb => parseSingleGrouped pf ⟨fieldnames, cm, gb⟩ rows

/-- Round a value to the nearest IEEE binary64 double, half to even:
`Int.log 2 |q|` is the binade exponent and `2 ^ (e - 52)` one unit in the
last place of that binade.  Stated for the normal range — overflow and
subnormal underflow do not occur in the sums considered here and are not
modelled. -/
def flDouble (q : ℚ) : ℚ :=
  if q = 0 then 0
  else
    (if q > 0 then 1 else -1) *
      (roundHalfEven (|q| / 2 ^ (Int.log 2 |q| - 52)) : ℚ) *
        2 ^ (Int.log 2 |q| - 52)

/-- One Python float addition: the exact sum of the two double operands,
rounded back to a double. -/
def fadd (a b : ℚ) : ℚ := flDouble (a + b)

/-- `summary[key] = summary.get(key, 0.0) + runtime` under the program's
actual IEEE binary64 accumulation. -/
def stepSummaryF (pf : String → Option ℚ) (c : STConfig)
    (summary : List (List String × ℚ)) (row : Row) :
    List (List String × ℚ) :=
  dins summary (cleanedValues c row)
    (fadd ((dget summary (cleanedValues c row)).getD 0)
      (contribution pf c row))

/-- The aggregation accumulator under IEEE float accumulation. -/
def buildSummaryF (pf : String → Option ℚ) (c : STConfig) (rows : List Row) :
    List (List String × ℚ) :=
  rows.foldl (stepSummaryF pf c) []

/-- The grouping path of `_parse_single_table_csv` with the accumulator's
float additions rounded as the program's IEEE arithmetic rounds them. -/
def parseSingleGroupedFloat (pf : String → Option ℚ) (c : STConfig)
    (rows : List Row) : List (List (String × Val)) :=
  match kRuntimeOf c with
  | none => []
  | some _ =>
    ((buildSummaryF pf c rows).map (fun e => outputRow c e.1 e.2)).mergeSort
      (fun x y => listLexLe (sortKeyOf c x) (sortKeyOf c y))

/-- Python `float` on the three decimal literals exercised by the
order-dependence counterexample; each is exactly representable in
binary64. -/
def pyFloatLit (s : String) : Option ℚ :=
  if s = "1e16" then some (10 ^ 16)
  else if s = "-1e16" then some (-(10 ^ 16))
  else if s = "1" then some 1
  else none

end ToolsEtl

namespace ToolsEtl

/-! ### Dictionary lemmas -/

theorem dget_nil {α β : Type} [DecidableEq α] (k : α) :
    dget ([] : List (α × β)) k = none := rfl

theorem dget_cons {α β : Type} [DecidableEq α] (q : α × β) (d : List (α × β))
    (k : α) :
    dget (q :: d) k = if q.1 = k then some q.2 else dget d k := by
  unfold dget
  by_cases h : q.1 = k
  · simp [List.find?_cons_of_pos, h]
  · rw [List.find?_cons_of_neg _ (by simpa using h), if_neg h]

theorem dget_eq_none_iff {α β : Type} [DecidableEq α] (d : List (α × β))
    (k : α) : dget d k = none ↔ ∀ p ∈ d, p.1 ≠ k := by
  unfold dget
  simp [List.find?_eq_none]

theorem dget_isSome_iff {α β : Type} [DecidableEq α] (d : List (α × β))
    (k : α) : (dget d k).isSome ↔ ∃ p ∈ d, p.1 = k := by
  unfold dget
  simp [List.find?_isSome]

/-- Replacing-in-place over the whole dict, viewed through `dget`. -/
theorem dget_map_replace {α β : Type} [DecidableEq α] (d : List (α × β))
    (k k' : α) (v : β) :
    dget (d.map (fun p => if p.1 = k then (k, v) else p)) k' =
      if k' = k then (dget d k).map (fun _ => v) else dget d k' := by
  induction d with
  | nil => simp [dget]
  | cons q d ih =>
    simp only [List.map_cons, dget_cons]
    by_cases hq : q.1 = k
    · by_cases hk : k' = k
      · subst hk
        simp [hq]
      · have h' : ¬(k = k') := fun h => hk h.symm
        simp [hq, hk, h', ih]
    · by_cases hqk : q.1 = k'
      · have hk : ¬(k' = k) := fun h => hq (by rw [hqk, h])
        simp [hq, hqk, hk]
      · simp [hq, hqk, ih]

theorem dget_append {α β : Type} [DecidableEq α] (d e : List (α × β))
    (k : α) : dget (d ++ e) k = (dget d k).or (dget e k) := by
  unfold dget
  rw [List.find?_append]
  cases List.find? (fun p => decide (p.1 = k)) d <;> simp

theorem dget_dins {α β : Type} [DecidableEq α] (d : List (α × β)) (k k' : α)
    (v : β) :
    dget (dins d k v) k' = if k' = k then some v else dget d k' := by
  unfold dins
  by_cases hc : d.any (fun p => p.1 = k)
  · rw [if_pos hc, dget_map_replace]
    by_cases h : k' = k
    · have hs : (dget d k).isSome := (dget_isSome_iff d k).mpr (by simpa using hc)
      obtain ⟨w, hw⟩ := Option.isSome_iff_exists.mp hs
      simp [h, hw]
    · simp [h]
  · rw [if_neg hc, dget_append]
    have hnone : dget d k = none := by
      rw [dget_eq_none_iff]
      intro p hp hpk
      exact hc (List.any_eq_true.mpr ⟨p, hp, by simpa using hpk⟩)
    by_cases h : k' = k
    · subst h
      rw [hnone]
      simp [dget_cons]
    · rw [if_neg h]
      have h1 : dget [(k, v)] k' = none := by
        rw [dget_cons, if_neg (fun hh => h hh.symm), dget_nil]
      rw [h1]
      cases dget d k' <;> simp

/-- The keys of a dict are unchanged by a replacing insert and extended by a
fresh insert. -/
theorem keys_dins {α β : Type} [DecidableEq α] (d : List (α × β)) (k : α)
    (v : β) :
    (dins d k v).map Prod.fst =
      if d.any (fun p => p.1 = k) then d.map Prod.fst
      else d.map Prod.fst ++ [k] := by
  unfold dins
  by_cases h : d.any (fun p => p.1 = k)
  · rw [if_pos h, if_pos h, List.map_map]
    apply List.map_congr_left
    intro p _
    by_cases hp : p.1 = k
    · simp [hp]
    · simp [hp]
  · rw [if_neg h, if_neg h]
    simp

theorem dunion_cons {α β : Type} [DecidableEq α] (a : List (α × β))
    (q : α × β) (b : List (α × β)) :
    dunion a (q :: b) = dunion (dins a q.1 q.2) b := rfl

/-- A key absent from `b` keeps its `a` value in `{**a, **b}`. -/
theorem dget_dunion_none {α β : Type} [DecidableEq α] (a b : List (α × β))
    (k : α) : dget b k = none → dget (dunion a b) k = dget a k := by
  induction b generalizing a with
  | nil => intro _; rfl
  | cons q b ih =>
    intro hb
    rw [dget_cons] at hb
    by_cases hq : q.1 = k
    · simp [hq] at hb
    · rw [if_neg hq] at hb
      rw [dunion_cons, ih _ hb, dget_dins, if_neg (fun h => hq h.symm)]

/-- Right precedence: a key present in `b` keeps its `b` value in
`{**a, **b}` (for a `b` with unique keys, as all parsed rows have). -/
theorem dget_dunion_right {α β : Type} [DecidableEq α] (a b : List (α × β))
    (k : α) (v : β) :
    (b.map Prod.fst).Nodup → dget b k = some v →
      dget (dunion a b) k = some v := by
  induction b generalizing a with
  | nil => intro _ hv; simp [dget] at hv
  | cons q b ih =>
    intro hb hv
    rw [List.map_cons, List.nodup_cons] at hb
    rw [dget_cons] at hv
    rw [dunion_cons]
    by_cases hq : q.1 = k
    · rw [if_pos hq] at hv
      have hbnone : dget b k = none := by
        rw [dget_eq_none_iff]
        intro p hp hpk
        have hmem : p.1 ∈ b.map Prod.fst := List.mem_map_of_mem _ hp
        rw [hpk, ← hq] at hmem
        exact hb.1 hmem
      rw [dget_dunion_none _ _ _ hbnone, dget_dins, if_pos hq.symm]
      exact hv
    · rw [if_neg hq] at hv
      exact ih _ hb.2 hv

theorem dins_fresh_append {α β : Type} [DecidableEq α] (d : List (α × β))
    (k : α) (v : β) (h : k ∉ d.map Prod.fst) : dins d k v = d ++ [(k, v)] := by
  unfold dins
  rw [if_neg]
  intro hc
  rw [List.any_eq_true] at hc
  rcases hc with ⟨p, hp, hpk⟩
  exact h ((by simpa using hpk : p.1 = k) ▸ List.mem_map_of_mem _ hp)

/-- In a dict with unique keys, membership of a pair is the same as a
successful lookup. -/
theorem mem_iff_dget {α β : Type} [DecidableEq α] :
    ∀ (d : List (α × β)), (d.map Prod.fst).Nodup →
      ∀ (k : α) (v : β), ((k, v) ∈ d ↔ dget d k = some v) := by
  intro d
  induction d with
  | nil => intro _ k v; simp [dget]
  | cons q d ih =>
    intro hn k v
    rw [List.map_cons, List.nodup_cons] at hn
    rw [dget_cons, List.mem_cons]
    by_cases hq : q.1 = k
    · rw [if_pos hq]
      constructor
      · intro h
        rcases h with h | h
        · rw [← h]
        · exact absurd (hq ▸ List.mem_map_of_mem Prod.fst h) hn.1
      · intro h
        left
        have : v = q.2 := by
          have := Option.some.inj h
          rw [this]
        rw [this, ← hq]
    · rw [if_neg hq]
      rw [ih hn.2 k v]
      constructor
      · intro h
        rcases h with h | h
        · exact absurd (congrArg Prod.fst h.symm) hq
        · exact h
      · intro h
        exact Or.inr h

theorem dins_keys_nodup {α β : Type} [DecidableEq α] (d : List (α × β))
    (k : α) (v : β) (h : (d.map Prod.fst).Nodup) :
    ((dins d k v).map Prod.fst).Nodup := by
  rw [keys_dins]
  by_cases hc : d.any (fun p => p.1 = k)
  · rw [if_pos hc]; exact h
  · rw [if_neg hc]
    refine List.Nodup.append h (List.nodup_singleton _) ?_
    intro a ha hb
    rw [List.mem_singleton] at hb
    subst hb
    rcases List.mem_map.mp ha with ⟨p, hp, hpk⟩
    exact hc (List.any_eq_true.mpr ⟨p, hp, by simpa using hpk⟩)

/-- Folding fresh pairs into a dict is plain concatenation when all keys stay
distinct. -/
theorem dunion_eq_append {α β : Type} [DecidableEq α] :
    ∀ (b a : List (α × β)), (((a ++ b).map Prod.fst).Nodup) →
      dunion a b = a ++ b := by
  intro b
  induction b with
  | nil => intro a _; simp [dunion]
  | cons q b ih =>
    intro a hn
    rw [dunion_cons]
    have hq : q.1 ∉ a.map Prod.fst := by
      intro hx
      rw [List.map_append, List.nodup_append] at hn
      exact hn.2.2 hx (by simp)
    rw [dins_fresh_append a q.1 q.2 hq]
    have : ((a ++ [q]) ++ b).map Prod.fst = (a ++ q :: b).map Prod.fst := by
      rw [List.append_assoc]
      rfl
    rw [ih (a ++ [q]) (by rw [this]; exact hn), List.append_assoc]
    rfl

/-- `dict(pairs)` is the identity on pair lists with distinct keys. -/
theorem dictOfPairs_eq_self {α β : Type} [DecidableEq α]
    (ps : List (α × β)) (h : (ps.map Prod.fst).Nodup) :
    dictOfPairs ps = ps := by
  have : dictOfPairs ps = dunion [] ps := rfl
  rw [this, dunion_eq_append ps [] (by simpa using h)]
  rfl

/-! ### Decimal rendering and fresh-title lemmas -/

theorem natDigitsAux_fuel : ∀ f1 f2 n, n < f1 → n < f2 →
    natDigitsAux f1 n = natDigitsAux f2 n := by
  intro f1
  induction f1 with
  | zero => intro f2 n h1 _; omega
  | succ g ih =>
    intro f2 n h1 h2
    cases f2 with
    | zero => omega
    | succ h =>
      unfold natDigitsAux
      by_cases hn : n < 10
      · simp [hn]
      · simp only [if_neg hn]
        congr 1
        exact ih h (n / 10) (by omega) (by omega)

theorem natDigitsAux_ne_nil : ∀ f n, n < f → natDigitsAux f n ≠ [] := by
  intro f
  induction f with
  | zero => intro n h; omega
  | succ g _ =>
    intro n _
    unfold natDigitsAux
    by_cases hn : n < 10
    · simp [hn]
    · simp [hn]

theorem digitChar_inj_aux : ∀ a b : Fin 10,
    Nat.digitChar a.val = Nat.digitChar b.val → a = b := by decide

theorem natDigits_inj : ∀ n m : Nat,
    natDigitsAux (n + 1) n = natDigitsAux (m + 1) m → n = m := by
  intro n
  induction n using Nat.strong_induction_on with
  | _ n ih =>
    intro m h
    by_cases hn : n < 10 <;> by_cases hm : m < 10
    · unfold natDigitsAux at h
      simp only [if_pos hn, if_pos hm, List.cons.injEq, and_true] at h
      have := digitChar_inj_aux ⟨n, hn⟩ ⟨m, hm⟩ h
      exact congrArg Fin.val this
    · exfalso
      unfold natDigitsAux at h
      simp only [if_pos hn, if_neg hm] at h
      have hlen := congrArg List.length h
      have hne := natDigitsAux_ne_nil m (m / 10) (by omega)
      simp only [List.length_cons, List.length_nil, List.length_append] at hlen
      cases hmm : natDigitsAux m (m / 10) with
      | nil => exact hne hmm
      | cons x xs => rw [hmm] at hlen; simp at hlen
    · exfalso
      unfold natDigitsAux at h
      simp only [if_neg hn, if_pos hm] at h
      have hlen := congrArg List.length h
      have hne := natDigitsAux_ne_nil n (n / 10) (by omega)
      simp only [List.length_cons, List.length_nil, List.length_append] at hlen
      cases hnn : natDigitsAux n (n / 10) with
      | nil => exact hne hnn
      | cons x xs => rw [hnn] at hlen; simp at hlen
    · unfold natDigitsAux at h
      simp only [if_neg hn, if_neg hm] at h
      have hparts := List.append_inj' h (by simp)
      have hmod : n % 10 = m % 10 := by
        have := hparts.2
        simp only [List.cons.injEq, and_true] at this
        have := digitChar_inj_aux ⟨n % 10, by omega⟩ ⟨m % 10, by omega⟩ this
        exact congrArg Fin.val this
      have hdiv : n / 10 = m / 10 := by
        apply ih (n / 10) (by omega)
        have e1 : natDigitsAux (n / 10 + 1) (n / 10) = natDigitsAux n (n / 10) :=
          natDigitsAux_fuel _ _ _ (by omega) (by omega)
        have e2 : natDigitsAux (m / 10 + 1) (m / 10) = natDigitsAux m (m / 10) :=
          natDigitsAux_fuel _ _ _ (by omega) (by omega)
        rw [e1, e2]
        exact hparts.1
      omega

theorem pyFmtTitle_inj (title : String) (c d : Nat) :
    pyFmtTitle title c = pyFmtTitle title d → c = d := by
  intro h
  unfold pyFmtTitle at h
  have h2 : title.data ++ '_' :: natDigitsAux (c + 1) c
      = title.data ++ '_' :: natDigitsAux (d + 1) d := congrArg String.data h
  have h3 := List.append_cancel_left h2
  simp only [List.cons.injEq, true_and] at h3
  exact natDigits_inj c d h3

theorem pyFmtTitle_ne (title : String) (c : Nat) :
    title ≠ pyFmtTitle title c := by
  intro h
  have h2 := congrArg (fun s => s.data.length) h
  simp only [pyFmtTitle] at h2
  simp at h2

theorem titleCandidates_nodup (n : Nat) (title : String) :
    (titleCandidates n title).Nodup := by
  unfold titleCandidates
  refine List.nodup_cons.mpr ⟨?_, ?_⟩
  · intro hmem
    rcases List.mem_map.mp hmem with ⟨c, _, hc⟩
    exact pyFmtTitle_ne title (c + 1) hc.symm
  · refine List.Nodup.map ?_ (List.nodup_range _)
    intro a b hab
    have := pyFmtTitle_inj title (a + 1) (b + 1) hab
    omega

/-- The collision loop always exits on a title not yet in the table
collection: among `keys.length + 2` pairwise-distinct candidates, at least
one is not among the `keys.length` existing keys. -/
theorem freshTitle_not_mem (keys : List String) (title : String) :
    freshTitle keys title ∉ keys := by
  unfold freshTitle
  cases hf : (titleCandidates keys.length title).find?
      (fun c => !keys.contains c) with
  | some c =>
    have := List.find?_some hf
    simpa using this
  | none =>
    exfalso
    have hall := List.find?_eq_none.mp hf
    have hsub : (titleCandidates keys.length title) ⊆ keys := by
      intro c hc
      have := hall c hc
      simpa using this
    have hlen :=
      (List.subperm_of_subset (titleCandidates_nodup _ _) hsub).length_le
    simp [titleCandidates] at hlen
    omega

/-! ### Scan-loop lemmas -/

theorem scanRows_fst (fields : List String) : ∀ ls : List String,
    (scanRows fields ls).1 =
      (((ls.takeWhile isDataLine).map splitFields).filter
        (fun rd => rd.length = fields.length)).map
        (fun rd => dictOfPairs (fields.zip rd)) := by
  intro ls
  induction ls with
  | nil => rfl
  | cons l ls ih =>
    by_cases hd : isDataLine l
    · by_cases hw : (splitFields l).length = fields.length
      · simp [scanRows, hd, hw, ih, List.takeWhile_cons, List.filter_cons]
      · simp [scanRows, hd, hw, ih, List.takeWhile_cons, List.filter_cons]
    · simp [scanRows, hd, List.takeWhile_cons]

theorem scanRows_snd (fields : List String) : ∀ ls : List String,
    (scanRows fields ls).2 = ls.dropWhile isDataLine := by
  intro ls
  induction ls with
  | nil => rfl
  | cons l ls ih =>
    by_cases hd : isDataLine l
    · by_cases hw : (splitFields l).length = fields.length
      · simp [scanRows, hd, hw, ih, List.dropWhile_cons]
      · simp [scanRows, hd, hw, ih, List.dropWhile_cons]
    · simp [scanRows, hd, List.dropWhile_cons]

theorem scanRows_snd_length (fields : List String) (ls : List String) :
    (scanRows fields ls).2.length ≤ ls.length := by
  rw [scanRows_snd]
  exact (List.dropWhile_sublist isDataLine).length_le

/-- Any fuel at least the number of remaining lines computes the same result
as the wrapper `parseLines` (each iteration consumes at least one line). -/
theorem parseLinesF_fuel (cm : List (String × String)) : ∀ f lines tables ct,
    lines.length ≤ f →
    parseLinesF cm f lines tables ct = parseLines cm lines tables ct := by
  intro f
  induction f using Nat.strong_induction_on with
  | _ f ih =>
    intro lines tables ct hlen
    cases lines with
    | nil => cases f <;> rfl
    | cons line rest =>
      cases f with
      | zero => simp at hlen
      | succ g =>
        have hrest : rest.length ≤ g := by
          simp only [List.length_cons] at hlen
          omega
        rw [show parseLines cm (line :: rest) tables ct
            = parseLinesF cm (rest.length + 1) (line :: rest) tables ct
            from rfl]
        unfold parseLinesF
        by_cases h1 : line = ""
        · simp only [if_pos h1]
          rw [ih g (by omega) rest tables ct hrest,
            ih rest.length (by omega) rest tables ct (le_refl _)]
        · simp only [if_neg h1]
          by_cases h2 : containsComma line = true
          · simp only [h2, if_true]
            by_cases h3 : _feels_like_header (splitFields line) = true
            · simp only [h3, if_true]
              by_cases h4 : (scanRows (splitFields line) rest).1.isEmpty = true
              · simp only [h4, if_true]
                rw [ih g (by omega) rest _ ct hrest,
                  ih rest.length (by omega) rest _ ct (le_refl _)]
              · simp only [h4, if_false, Bool.false_eq_true]
                have hs2 := scanRows_snd_length (splitFields line) rest
                rw [ih g (by omega) _ _ _ (le_trans hs2 hrest),
                  ih rest.length (by omega) _ _ _ hs2]
            · simp only [h3, if_false, Bool.false_eq_true]
              rw [ih g (by omega) rest _ ct hrest,
                ih rest.length (by omega) rest _ ct (le_refl _)]
          · simp only [h2, if_false, Bool.false_eq_true]
            rw [ih g (by omega) rest tables _ hrest,
              ih rest.length (by omega) rest tables _ (le_refl _)]

/-- The metadata branch either leaves the table keys unchanged or appends the
previously absent reserved key `"Metadata"`; it never stores a new data
table. -/
theorem metaStep_keys (tables : List (String × List Row))
    (fields : List String) :
    (metaStep tables fields).map Prod.fst = tables.map Prod.fst
    ∨ ("Metadata" ∉ tables.map Prod.fst ∧
        (metaStep tables fields).map Prod.fst
          = tables.map Prod.fst ++ ["Metadata"]) := by
  rcases fields with _ | ⟨a, _ | ⟨b, _ | ⟨c, tl⟩⟩⟩
  · exact Or.inl rfl
  · exact Or.inl rfl
  · unfold metaStep
    by_cases hm : tables.any (fun p => p.1 = "Metadata") = true
    · left
      simp only [if_pos hm]
      rw [keys_dins, if_pos hm]
    · right
      have hmem : "Metadata" ∉ tables.map Prod.fst := by
        intro hx
        rcases List.mem_map.mp hx with ⟨p, hp, hpk⟩
        exact hm (List.any_eq_true.mpr ⟨p, hp, by simpa using hpk⟩)
      refine ⟨hmem, ?_⟩
      simp only [if_neg hm]
      rw [keys_dins, if_pos (by simp), List.map_append]
      rfl
  · exact Or.inl rfl

theorem metaStep_nodup (tables : List (String × List Row))
    (fields : List String) (h : (tables.map Prod.fst).Nodup) :
    ((metaStep tables fields).map Prod.fst).Nodup := by
  rcases metaStep_keys tables fields with hk | ⟨hmem, hk⟩
  · rw [hk]; exact h
  · rw [hk]
    refine List.Nodup.append h (List.nodup_singleton _) ?_
    intro a ha hb
    rw [List.mem_singleton] at hb
    subst hb
    exact hmem ha

/-- The scanning loop preserves uniqueness of table keys: stored titles are
always fresh and the metadata branch only ever creates `"Metadata"` once. -/
theorem parseLinesF_keys_nodup (cm : List (String × String)) :
    ∀ f lines (tables : List (String × List Row)) ct,
    (tables.map Prod.fst).Nodup →
    ((parseLinesF cm f lines tables ct).map Prod.fst).Nodup := by
  intro f
  induction f with
  | zero => intro lines tables ct h; cases lines <;> exact h
  | succ g ih =>
    intro lines tables ct h
    cases lines with
    | nil => exact h
    | cons line rest =>
      unfold parseLinesF
      by_cases h1 : line = ""
      · simp only [if_pos h1]
        exact ih rest tables ct h
      · simp only [if_neg h1]
        by_cases h2 : containsComma line = true
        · simp only [h2, if_true]
          by_cases h3 : _feels_like_header (splitFields line) = true
          · simp only [h3, if_true]
            by_cases h4 : (scanRows (splitFields line) rest).1.isEmpty = true
            · simp only [h4, if_true]
              exact ih rest _ ct (metaStep_nodup tables _ h)
            · simp only [h4, if_false, Bool.false_eq_true]
              apply ih
              have hfresh := freshTitle_not_mem (tables.map Prod.fst)
                (pyOr ct "Unnamed Table")
              rw [dins_fresh_append _ _ _ hfresh, List.map_append]
              refine List.Nodup.append h (List.nodup_singleton _) ?_
              intro a ha hb
              simp only [List.map_cons, List.map_nil, List.mem_singleton] at hb
              subst hb
              exact hfresh ha
          · simp only [h3, if_false, Bool.false_eq_true]
            exact ih rest _ ct (metaStep_nodup tables _ h)
        · simp only [h2, if_false, Bool.false_eq_true]
          exact ih rest tables _ h

/-! ### Claims C1, C2, C6 and C10 -/

/-- C1: below a line classified as a header, the extractor harvests exactly
the contiguous non-blank delimiter-bearing lines whose field count equals the
header's, in original input order (rows of any other width are silently
dropped); a block with at least one surviving row is stored under the
resolved title and scanning resumes past the consumed block; a block with
zero surviving rows is not stored as a table — the header line falls through
to metadata handling, which never adds a table key other than the reserved
`"Metadata"`. -/
theorem C1_header_block_rows :
    (∀ fields ls, (scanRows fields ls).1 =
      (((ls.takeWhile isDataLine).map splitFields).filter
        (fun rd => rd.length = fields.length)).map
        (fun rd => dictOfPairs (fields.zip rd)))
    ∧ (∀ cm line rest tables ct, line ≠ "" → containsComma line = true →
        _feels_like_header (splitFields line) = true →
        ((scanRows (splitFields line) rest).1 ≠ [] →
          parseLines cm (line :: rest) tables ct =
            parseLines cm (rest.dropWhile isDataLine)
              (dins tables
                (freshTitle (tables.map Prod.fst) (pyOr ct "Unnamed Table"))
                (if cm.isEmpty then (scanRows (splitFields line) rest).1
                 else (scanRows (splitFields line) rest).1.map
                   (mapRowKeys cm)))
              none)
        ∧ ((scanRows (splitFields line) rest).1 = [] →
          parseLines cm (line :: rest) tables ct =
            parseLines cm rest (metaStep tables (splitFields line)) ct))
    ∧ (∀ tables fields,
        (metaStep tables fields).map Prod.fst = tables.map Prod.fst
        ∨ (metaStep tables fields).map Prod.fst
            = tables.map Prod.fst ++ ["Metadata"]) := by
  refine ⟨scanRows_fst, ?_, fun tables fields => ?_⟩
  · intro cm line rest tables ct h1 h2 h3
    constructor
    · intro h4
      have h4' : (scanRows (splitFields line) rest).1.isEmpty = false := by
        cases he : (scanRows (splitFields line) rest).1 with
        | nil => exact absurd he h4
        | cons x xs => rfl
      rw [show parseLines cm (line :: rest) tables ct
          = parseLinesF cm (rest.length + 1) (line :: rest) tables ct
          from rfl]
      unfold parseLinesF
      simp only [if_neg h1, h2, if_true, h3, h4', if_false,
        Bool.false_eq_true]
      rw [← scanRows_snd (splitFields line) rest]
      exact parseLinesF_fuel cm rest.length _ _ _
        (scanRows_snd_length (splitFields line) rest)
    · intro h4
      have h4' : (scanRows (splitFields line) rest).1.isEmpty = true := by
        rw [h4]; rfl
      rw [show parseLines cm (line :: rest) tables ct
          = parseLinesF cm (rest.length + 1) (line :: rest) tables ct
          from rfl]
      unfold parseLinesF
      simp only [if_neg h1, h2, if_true, h3, h4']
      rfl
  · rcases metaStep_keys tables fields with hk | ⟨_, hk⟩
    · exact Or.inl hk
    · exact Or.inr hk

/-- Witness for `C1_header_block_rows`: a header `A,B` followed by a
width-2 row, a width-3 row (dropped) and another width-2 row, cut off by a
blank line. -/
theorem C1_header_block_rows_witness :
    parseLines [] ["A,B", "1,2", "1,2,3", "3,4", "", "x"] [] none =
      parseLines [] (["1,2", "1,2,3", "3,4", "", "x"].dropWhile isDataLine)
        (dins []
          (freshTitle (([] : List (String × List Row)).map Prod.fst)
            (pyOr none "Unnamed Table"))
          (if ([] : List (String × String)).isEmpty
           then (scanRows (splitFields "A,B")
              ["1,2", "1,2,3", "3,4", "", "x"]).1
           else (scanRows (splitFields "A,B")
              ["1,2", "1,2,3", "3,4", "", "x"]).1.map (mapRowKeys [])))
        none :=
  (C1_header_block_rows.2.1 [] "A,B" ["1,2", "1,2,3", "3,4", "", "x"] [] none
    (by decide) (by decide) (by decide)).1 (by decide)

/-- C2: within one extraction pass every stored table has a unique title and
no table is ever overwritten: the resolved title is always outside the
existing keys, storing a table appends a new entry rather than replacing one,
the final key list is duplicate-free, a title with no collision is used
as is, and three same-titled tables come out as `T`, `T_1`, `T_2` in
encounter order. -/
theorem C2_unique_titles :
    (∀ keys title, freshTitle keys title ∉ keys)
    ∧ (∀ keys title, title ∉ keys → freshTitle keys title = title)
    ∧ (∀ tables : List (String × List Row), ∀ k : String, ∀ v : List Row,
        k ∉ tables.map Prod.fst → dins tables k v = tables ++ [(k, v)])
    ∧ (∀ cm lines (tables : List (String × List Row)) ct,
        (tables.map Prod.fst).Nodup →
        ((parseLines cm lines tables ct).map Prod.fst).Nodup)
    ∧ (parseLines []
        ["T", "A,B", "1,2", "", "T", "A,B", "3,4", "", "T", "A,B", "5,6"]
        [] (some "Metadata")).map Prod.fst = ["T", "T_1", "T_2"]
    ∧ (∀ keys title, title ∈ keys → pyFmtTitle title 1 ∉ keys →
        freshTitle keys title = pyFmtTitle title 1) := by
  refine ⟨freshTitle_not_mem, ?_, dins_fresh_append, ?_, by decide, ?_⟩
  · intro keys title hmem
    unfold freshTitle titleCandidates
    rw [List.find?_cons_of_pos _ (by simpa using hmem)]
  · intro cm lines tables ct h
    exact parseLinesF_keys_nodup cm lines.length lines tables ct h
  · intro keys title hmem hnot
    unfold freshTitle titleCandidates
    have hn : keys.length + 1 = (keys.length - 1 + 1) + 1 := by
      cases keys with
      | nil => cases hmem
      | cons a l => simp
    rw [hn, List.range_succ_eq_map, List.map_cons,
      List.find?_cons_of_neg _ (by simpa using hmem),
      List.find?_cons_of_pos _ (by simpa using hnot)]

/-- Witness for `C2_unique_titles`: concrete collision resolution and a
concrete append-not-overwrite store. -/
theorem C2_unique_titles_witness :
    (freshTitle ["T", "T_1"] "T" ∉ (["T", "T_1"] : List String))
    ∧ freshTitle ["X"] "T" = "T"
    ∧ dins [("X", ([] : List Row))] "Y" [] = [("X", []), ("Y", [])]
    ∧ ((parseLines [] ["A,B", "1,2"] [("Z", ([[("c", "d")]] : List Row))]
        none).map Prod.fst).Nodup
    ∧ freshTitle ["T"] "T" = pyFmtTitle "T" 1 :=
  ⟨C2_unique_titles.1 ["T", "T_1"] "T",
    C2_unique_titles.2.1 ["X"] "T" (by decide),
    C2_unique_titles.2.2.1 [("X", [])] "Y" [] (by decide),
    C2_unique_titles.2.2.2.1 [] ["A,B", "1,2"] [("Z", [[("c", "d")]])] none
      (by decide),
    C2_unique_titles.2.2.2.2.2 ["T"] "T" (by decide) (by decide)⟩

/-- C6: any I/O or decoding error during extraction yields the empty
collection.  In the source the only fallible operation inside the `try` is
`open`/`readlines`, which completes before any table is accumulated, so the
`except` handler's `return tables` always returns the still-empty dict and
no partial result can escape; on a successful read the full scanning loop
runs. -/
theorem C6_error_empty_collection :
    (∀ cm msg, _parse_multi_table_csv (Except.error msg) cm = [])
    ∧ (∀ cm raw, _parse_multi_table_csv (Except.ok raw) cm
        = parseLines cm (raw.map pyStrip) [] (some "Metadata")) :=
  ⟨fun _ _ => rfl, fun _ _ => rfl⟩

/-- C10: the initial pending title is the string `"Metadata"`: a table block
appearing before any free-text title line is stored under `"Metadata"`, a
subsequent two-field metadata line is appended to that data table (the
reserved name has been taken), and only an untitled block occurring after the
pending title was consumed defaults to `"Unnamed Table"`. -/
theorem C10_initial_pending_title_metadata :
    _parse_multi_table_csv
        (Except.ok ["A,B", "1,2", "", "k,v", "", "C,D", "5,6"]) []
      = [("Metadata",
            [[("A", "1"), ("B", "2")], [("Property", "k"), ("Value", "v")]]),
         ("Unnamed Table", [[("C", "5"), ("D", "6")]])] := by decide

/-! ### Claims C3 and C4 -/

/-- C3: the header classifier returns false for an empty field sequence; any
non-empty field matching the numeric/duration pattern
`^-?[\d.]+(%|ms|us|ns|s|min)?$` (case-insensitive) forces false; empty-string
fields are skipped without disqualifying; and it returns true otherwise.  In
particular it rejects `["3.4%", "12ms"]` and accepts `["Name", "Count"]`. -/
theorem C3_header_classifier :
    _feels_like_header [] = false
    ∧ (∀ fields val, val ∈ fields → val ≠ "" → isNumericLike val = true →
        _feels_like_header fields = false)
    ∧ (∀ fields, fields ≠ [] →
        (∀ val ∈ fields, val ≠ "" → isNumericLike val = false) →
        _feels_like_header fields = true)
    ∧ _feels_like_header ["3.4%", "12ms"] = false
    ∧ _feels_like_header ["Name", "Count"] = true
    ∧ isNumericLike "-3.4" = true ∧ isNumericLike "12ms" = true
    ∧ isNumericLike "12MS" = true ∧ isNumericLike "95" = true
    ∧ isNumericLike "Name" = false := by
  refine ⟨rfl, ?_, ?_, by decide, by decide, by decide, by decide, by decide,
    by decide, by decide⟩
  · intro fields val hmem hne hnum
    have hfne : fields ≠ [] := by rintro rfl; cases hmem
    unfold _feels_like_header
    simp only [if_neg hfne, List.all_eq_false]
    exact ⟨val, hmem, by simp [if_neg hne, hnum]⟩
  · intro fields hfne hall
    unfold _feels_like_header
    simp only [if_neg hfne, List.all_eq_true]
    intro val hmem
    by_cases hv : val = ""
    · simp [hv]
    · simp [if_neg hv, hall val hmem hv]

/-- Witness for `C3_header_classifier`: its universally quantified clauses
applied at concrete field lists. -/
theorem C3_header_classifier_witness :
    _feels_like_header ["Total", "7s"] = false
    ∧ _feels_like_header ["Proc", "", "Label"] = true :=
  ⟨C3_header_classifier.2.1 ["Total", "7s"] "7s" (by decide) (by decide)
      (by decide),
    C3_header_classifier.2.2.1 ["Proc", "", "Label"] (by decide) (by decide)⟩

/-- C4: `decode_setting_value` splits its input on whitespace; with fewer
than 2 tokens it returns the input unchanged; otherwise it drops the first
(length) token, truncates the byte tokens to the first 4 when more than 4
remain, reverses them, and returns their concatenation prefixed with `0x`.
In particular `"00000004 e8 03 00 00"` decodes to `"0x000003e8"`, a 10-byte
payload is decoded from only its first 4 bytes, and a single-token input
comes back unchanged. -/
theorem C4_decode_setting_value :
    (∀ val, _format_setting_value val = decode_setting_value_spec val)
    ∧ _format_setting_value "00000004 e8 03 00 00" = "0x000003e8"
    ∧ _format_setting_value "0000000a 01 02 03 04 05 06 07 08 09 0a"
        = "0x04030201"
    ∧ _format_setting_value "0000000400" = "0000000400" := by
  refine ⟨?_, by decide, by decide, by decide⟩
  intro val
  unfold _format_setting_value decode_setting_value_spec
  by_cases h : (pySplit val).length < 2
  · simp [h]
  · simp only [if_neg h]
    by_cases h4 : 4 < (pySplit val).length - 1
    · simp [h4]
    · simp only [List.drop_one, List.length_tail, if_neg h4]
      rw [List.take_of_length_le (by rw [List.length_tail]; omega)]

/-! ### Claim C5 -/

/-- C5: the join emits exactly one output row per right-table row, in
right-table order: a right row whose key matches a left row becomes the
field-union of that left row and the right row, with the right row's fields
taking precedence on name collision; an unmatched right row is emitted
unmodified; and (the output being exactly a map over the right table) left
rows with no matching right row never appear. -/
theorem C5_join_right_table_semantics :
    (∀ key left right, (joinOnKey key left right).length = right.length)
    ∧ (∀ (key : String) (left right : List Row) (i : Nat) (s : Row),
        right[i]? = some s →
        (∀ p, dget (profilesMapOn key left) (dget s key) = some p →
            (joinOnKey key left right)[i]? = some (dunion p s))
        ∧ (dget (profilesMapOn key left) (dget s key) = none →
            (joinOnKey key left right)[i]? = some s))
    ∧ (∀ a b : Row, ∀ k v : String, (b.map Prod.fst).Nodup →
        dget b k = some v → dget (dunion a b) k = some v)
    ∧ (∀ a b : Row, ∀ k : String, dget b k = none →
        dget (dunion a b) k = dget a k) := by
  refine ⟨?_, ?_, fun a b k v => dget_dunion_right a b k v,
    fun a b k => dget_dunion_none a b k⟩
  · intro key left right
    simp [joinOnKey]
  · intro key left right i s hs
    constructor
    · intro p hp
      simp [joinOnKey, hs, hp]
    · intro hp
      simp [joinOnKey, hs, hp]

/-- Witness for `C5_join_right_table_semantics`: the specification's concrete
example, joined on `"id"` — the matched right row is enriched with right
precedence, the unmatched right row passes through, and the unmatched-left
case never appears because the output has exactly one row per right row. -/
theorem C5_join_right_table_semantics_witness :
    (joinOnKey "id" [[("id", "1"), ("x", "a")]]
        [[("id", "1"), ("y", "b")], [("id", "2"), ("y", "c")]]).length = 2
    ∧ (joinOnKey "id" [[("id", "1"), ("x", "a")]]
        [[("id", "1"), ("y", "b")], [("id", "2"), ("y", "c")]])[0]?
        = some (dunion [("id", "1"), ("x", "a")] [("id", "1"), ("y", "b")])
    ∧ (joinOnKey "id" [[("id", "1"), ("x", "a")]]
        [[("id", "1"), ("y", "b")], [("id", "2"), ("y", "c")]])[1]?
        = some [("id", "2"), ("y", "c")]
    ∧ dget (dunion [("id", "1"), ("x", "a")] [("id", "1"), ("y", "b")]) "y"
        = some "b" := by
  refine ⟨?_, ?_, ?_, ?_⟩
  · exact (C5_join_right_table_semantics.1 "id" _ _).trans (by decide)
  · exact (C5_join_right_table_semantics.2.1 "id" _ _ 0 _ (by decide)).1 _
      (by decide)
  · exact (C5_join_right_table_semantics.2.1 "id" _ _ 1 _ (by decide)).2
      (by decide)
  · exact C5_join_right_table_semantics.2.2.1 _ _ "y" "b" (by decide)
      (by decide)

/-! ### Aggregation lemmas -/

/-- The accumulator after folding rows over a starting summary: a key with no
matching row keeps its old entry; a key with matching rows ends at its old
value (default `0`) plus the sum of the matching rows' contributions. -/
theorem dget_foldl_stepSummary (pf : String → Option ℚ) (c : STConfig) :
    ∀ (rows : List Row) (acc : List (List String × ℚ)) (k : List String),
    dget (rows.foldl (stepSummary pf c) acc) k =
      if (rows.filter (fun r => cleanedValues c r = k)).isEmpty then
        dget acc k
      else
        some ((dget acc k).getD 0 +
          ((rows.filter (fun r => cleanedValues c r = k)).map
            (contribution pf c)).sum) := by
  intro rows
  induction rows with
  | nil => intro acc k; simp
  | cons r rows ih =>
    intro acc k
    rw [List.foldl_cons]
    by_cases hk : cleanedValues c r = k
    · have hfc : List.filter (fun x => decide (cleanedValues c x = k))
          (r :: rows)
          = r :: List.filter (fun x => decide (cleanedValues c x = k)) rows := by
        rw [List.filter_cons, if_pos (by simpa using hk)]
      have hacc : dget (stepSummary pf c acc r) k =
          some ((dget acc k).getD 0 + contribution pf c r) := by
        unfold stepSummary
        rw [dget_dins, if_pos hk.symm, hk]
      rw [hfc]
      simp only [List.isEmpty_cons, Bool.false_eq_true, if_false]
      rw [ih (stepSummary pf c acc r) k]
      by_cases hrest :
          (rows.filter (fun x => cleanedValues c x = k)).isEmpty = true
      · rw [if_pos hrest, hacc]
        have hnil : rows.filter (fun x => decide (cleanedValues c x = k))
            = [] := by simpa using hrest
        rw [hnil]
        simp
      · rw [if_neg hrest, hacc]
        simp only [Option.getD_some, List.map_cons, List.sum_cons]
        rw [add_assoc]
    · have hfc : List.filter (fun x => decide (cleanedValues c x = k))
          (r :: rows)
          = List.filter (fun x => decide (cleanedValues c x = k)) rows := by
        rw [List.filter_cons, if_neg (by simpa using hk)]
      have hacc : dget (stepSummary pf c acc r) k = dget acc k := by
        unfold stepSummary
        rw [dget_dins, if_neg (fun h => hk h.symm)]
      rw [hfc, ih (stepSummary pf c acc r) k, hacc]

/-- The summary over the whole stream, per key: `none` for keys with no
matching row, the sum of the matching rows' contributions otherwise. -/
theorem dget_buildSummary (pf : String → Option ℚ) (c : STConfig)
    (rows : List Row) (k : List String) :
    dget (buildSummary pf c rows) k =
      if (rows.filter (fun r => cleanedValues c r = k)).isEmpty then none
      else
        some (((rows.filter (fun r => cleanedValues c r = k)).map
          (contribution pf c)).sum) := by
  have h := dget_foldl_stepSummary pf c rows [] k
  rw [show buildSummary pf c rows = rows.foldl (stepSummary pf c) [] from rfl,
    h]
  by_cases he : (rows.filter (fun r => cleanedValues c r = k)).isEmpty
  · rw [if_pos he, if_pos he]
    rfl
  · rw [if_neg he, if_neg he]
    rw [show dget ([] : List (List String × ℚ)) k = none from rfl]
    simp

theorem buildSummary_keys_nodup (pf : String → Option ℚ) (c : STConfig) :
    ∀ (rows : List Row) (acc : List (List String × ℚ)),
    (acc.map Prod.fst).Nodup →
    ((rows.foldl (stepSummary pf c) acc).map Prod.fst).Nodup := by
  intro rows
  induction rows with
  | nil => intro acc h; exact h
  | cons r rows ih =>
    intro acc h
    rw [List.foldl_cons]
    exact ih _ (dins_keys_nodup _ _ _ h)

theorem buildSummary_keys_nodup' (pf : String → Option ℚ) (c : STConfig)
    (rows : List Row) : ((buildSummary pf c rows).map Prod.fst).Nodup :=
  buildSummary_keys_nodup pf c rows [] (by simp)

/-- Permuting the input rows permutes the summary (as a list of entries):
both sides have duplicate-free keys and agree, key by key, on the
order-independent sum of contributions. -/
theorem buildSummary_perm (pf : String → Option ℚ) (c : STConfig)
    {rows1 rows2 : List Row} (hp : rows1.Perm rows2) :
    (buildSummary pf c rows1).Perm (buildSummary pf c rows2) := by
  have hn1 : ((buildSummary pf c rows1).map Prod.fst).Nodup :=
    buildSummary_keys_nodup' pf c rows1
  have hn2 : ((buildSummary pf c rows2).map Prod.fst).Nodup :=
    buildSummary_keys_nodup' pf c rows2
  refine (List.perm_ext_iff_of_nodup (List.Nodup.of_map _ hn1)
    (List.Nodup.of_map _ hn2)).mpr ?_
  intro e
  rcases e with ⟨k, v⟩
  rw [mem_iff_dget _ hn1 k v, mem_iff_dget _ hn2 k v,
    dget_buildSummary, dget_buildSummary]
  have hfil : (rows1.filter (fun r => cleanedValues c r = k)).Perm
      (rows2.filter (fun r => cleanedValues c r = k)) := hp.filter _
  have hlen := hfil.length_eq
  have hiso : (rows1.filter (fun r => cleanedValues c r = k)).isEmpty
      = (rows2.filter (fun r => cleanedValues c r = k)).isEmpty := by
    rcases h1 : rows1.filter (fun r => cleanedValues c r = k) with _ | ⟨a, l⟩
      <;> rcases h2 : rows2.filter (fun r => cleanedValues c r = k)
        with _ | ⟨b, m⟩ <;> rw [h1, h2] at hlen <;> simp_all
  have hsum : ((rows1.filter (fun r => cleanedValues c r = k)).map
        (contribution pf c)).sum
      = ((rows2.filter (fun r => cleanedValues c r = k)).map
        (contribution pf c)).sum :=
    (hfil.map (contribution pf c)).sum_eq
  rw [hiso, hsum]

/-! ### Sort-order lemmas -/

theorem listLexLe_total : ∀ a b : List String,
    (listLexLe a b || listLexLe b a) = true := by
  intro a
  induction a with
  | nil => intro b; simp [listLexLe]
  | cons x as ih =>
    intro b
    cases b with
    | nil => simp [listLexLe]
    | cons y bs =>
      unfold listLexLe
      by_cases hxy : x < y
      · simp [hxy]
      · by_cases hyx : y < x
        · simp [hxy, hyx]
        · simp [hxy, hyx, ih bs]

theorem listLexLe_trans : ∀ a b c2 : List String,
    listLexLe a b = true → listLexLe b c2 = true → listLexLe a c2 = true := by
  intro a
  induction a with
  | nil => intro b c2 _ _; rfl
  | cons x as ih =>
    intro b c2 h1 h2
    cases b with
    | nil => simp [listLexLe] at h1
    | cons y bs =>
      cases c2 with
      | nil => simp [listLexLe] at h2
      | cons z cs =>
        unfold listLexLe at h1 h2 ⊢
        by_cases hxy : x < y
        · by_cases hyz : y < z
          · simp [lt_trans hxy hyz]
          · by_cases hzy : z < y
            · rw [if_neg hyz, if_pos hzy] at h2
              simp at h2
            · have hyz' : y = z := le_antisymm (le_of_not_lt hzy)
                (le_of_not_lt hyz)
              simp [hyz' ▸ hxy]
        · by_cases hyx : y < x
          · rw [if_neg hxy, if_pos hyx] at h1
            simp at h1
          · have hxy' : x = y := le_antisymm (le_of_not_lt hyx)
              (le_of_not_lt hxy)
            rw [if_neg hxy, if_neg hyx] at h1
            by_cases hyz : y < z
            · simp [hxy' ▸ hyz]
            · by_cases hzy : z < y
              · rw [if_neg hyz, if_pos hzy] at h2
                simp at h2
              · have hyz' : y = z := le_antisymm (le_of_not_lt hzy)
                  (le_of_not_lt hyz)
                rw [if_neg hyz, if_neg hzy] at h2
                have hxz : ¬(x < z) := hyz' ▸ hxy' ▸ hxy
                have hzx : ¬(z < x) := hyz' ▸ hxy' ▸ hyx
                rw [if_neg hxz, if_neg hzx]
                exact ih bs cs h1 h2

theorem listLexLe_antisymm : ∀ a b : List String,
    listLexLe a b = true → listLexLe b a = true → a = b := by
  intro a
  induction a with
  | nil =>
    intro b _ h2
    cases b with
    | nil => rfl
    | cons y bs => simp [listLexLe] at h2
  | cons x as ih =>
    intro b h1 h2
    cases b with
    | nil => simp [listLexLe] at h1
    | cons y bs =>
      unfold listLexLe at h1 h2
      by_cases hxy : x < y
      · rw [if_neg (lt_asymm hxy), if_pos hxy] at h2
        simp at h2
      · by_cases hyx : y < x
        · rw [if_neg hxy, if_pos hyx] at h1
          simp at h1
        · have hxy' : x = y := le_antisymm (le_of_not_lt hyx)
            (le_of_not_lt hxy)
          rw [if_neg hxy, if_neg hyx] at h1
          rw [if_neg (hxy' ▸ hyx), if_neg (hxy' ▸ hxy)] at h2
          rw [hxy', ih bs h1 h2]

/-- Two permuted lists that are both strictly sorted along an
asymmetric order on an attached key are equal. -/
theorem eq_of_perm_of_strict_sorted {α β : Type} (f : α → β)
    (lt : β → β → Prop) (hasym : ∀ x y, lt x y → lt y x → False) :
    ∀ l₁ l₂ : List α, l₁.Perm l₂ →
      l₁.Pairwise (fun a b => lt (f a) (f b)) →
      l₂.Pairwise (fun a b => lt (f a) (f b)) → l₁ = l₂ := by
  intro l₁
  induction l₁ with
  | nil =>
    intro l₂ hp _ _
    exact hp.nil_eq
  | cons a l₁ ih =>
    intro l₂ hp h1 h2
    cases l₂ with
    | nil =>
      have := hp.eq_nil
      simp at this
    | cons b l₂ =>
      have hab : a = b := by
        by_contra hne
        have ha2 : a ∈ b :: l₂ := hp.mem_iff.mp (List.mem_cons_self a l₁)
        have hb1 : b ∈ a :: l₁ := hp.mem_iff.mpr (List.mem_cons_self b l₂)
        have ha2' : a ∈ l₂ := by
          rcases List.mem_cons.mp ha2 with h | h
          · exact absurd h hne
          · exact h
        have hb1' : b ∈ l₁ := by
          rcases List.mem_cons.mp hb1 with h | h
          · exact absurd h.symm hne
          · exact h
        exact hasym (f a) (f b) ((List.pairwise_cons.mp h1).1 b hb1')
          ((List.pairwise_cons.mp h2).1 a ha2')
      subst hab
      rw [ih l₂ hp.cons_inv (List.pairwise_cons.mp h1).2
        (List.pairwise_cons.mp h2).2]

/-! ### Sort-key recovery -/

theorem filterMap_keys_of_isSome {α β : Type} (opt : α → Option β) :
    ∀ l : List α, (∀ x ∈ l, (opt x).isSome) →
      (l.filterMap (fun x => (opt x).map (fun y => (x, y)))).map Prod.fst
        = l := by
  intro l
  induction l with
  | nil => intro _; rfl
  | cons a l ih =>
    intro h
    obtain ⟨y, hy⟩ := Option.isSome_iff_exists.mp
      (h a (List.mem_cons_self a l))
    simp only [List.filterMap_cons, hy, Option.map_some', List.map_cons]
    rw [ih (fun x hx => h x (List.mem_cons_of_mem a hx))]

theorem groupKeysOf_resolved (c : STConfig)
    (hres : ∀ col ∈ c.groupBy, (dget (headerMap c.fieldnames)
      ((dget (inverseColMap c.colNameMap) col).getD col)).isSome) :
    (groupKeysOf c).map Prod.fst = c.groupBy :=
  filterMap_keys_of_isSome _ c.groupBy hres

theorem cleanedValues_length (c : STConfig)
    (hres : ∀ col ∈ c.groupBy, (dget (headerMap c.fieldnames)
      ((dget (inverseColMap c.colNameMap) col).getD col)).isSome)
    (row : Row) : (cleanedValues c row).length = c.groupBy.length := by
  unfold cleanedValues
  rw [List.length_map]
  have := congrArg List.length (groupKeysOf_resolved c hres)
  simpa using this

/-- Under distinct group-by columns of the right count, the sort key of an
emitted row recovers the GroupKey exactly. -/
theorem sortKeyOf_outputRow (c : STConfig) (key : List String) (total : ℚ)
    (hnd : c.groupBy.Nodup) (hlen : key.length = c.groupBy.length)
    (htr : "Total runtime" ∉ c.groupBy) :
    sortKeyOf c (outputRow c key total) = key := by
  have hkeys : ((c.groupBy.zip key).map
      (fun p => (p.1, Val.str p.2))).map Prod.fst = c.groupBy := by
    rw [List.map_map]
    have hcomp : (Prod.fst ∘ fun p : String × String => (p.1, Val.str p.2))
        = Prod.fst := by
      funext p
      rfl
    rw [hcomp, List.map_fst_zip c.groupBy key (by omega)]
  have hdict : dictOfPairs ((c.groupBy.zip key).map
        (fun p => (p.1, Val.str p.2)))
      = (c.groupBy.zip key).map (fun p => (p.1, Val.str p.2)) :=
    dictOfPairs_eq_self _ (by rw [hkeys]; exact hnd)
  have hplen : ((c.groupBy.zip key).map
      (fun p => (p.1, Val.str p.2))).length = c.groupBy.length := by
    simp [List.length_zip]
    omega
  unfold sortKeyOf
  apply List.ext_getElem (by simp [hlen])
  intro i hi1 hi2
  rw [List.getElem_map]
  have higb : i < c.groupBy.length := by simpa using hi1
  have hmem : c.groupBy[i] ∈ c.groupBy := List.getElem_mem higb
  have hneq : ¬(c.groupBy[i] = "Total runtime") := fun h => htr (h ▸ hmem)
  unfold outputRow
  rw [dget_dins, if_neg hneq]
  simp only [hdict]
  have hizip : i < (c.groupBy.zip key).length := by
    rw [List.length_zip]
    omega
  have hipair : i < ((c.groupBy.zip key).map
      (fun p => (p.1, Val.str p.2))).length := by
    rw [List.length_map]
    exact hizip
  have hpair : ((c.groupBy.zip key).map (fun p => (p.1, Val.str p.2)))[i]
      = (c.groupBy[i], Val.str key[i]) := by
    rw [List.getElem_map, List.getElem_zip]
  have hget : dget ((c.groupBy.zip key).map (fun p => (p.1, Val.str p.2)))
      c.groupBy[i] = some (Val.str key[i]) := by
    rw [← mem_iff_dget _ (by rw [hkeys]; exact hnd), ← hpair]
    exact List.getElem_mem hipair
  rw [hget]
  rfl

/-- The sort keys of the emitted rows are exactly the summary keys. -/
theorem sortKeys_of_summary (pf : String → Option ℚ) (c : STConfig)
    (hnd : c.groupBy.Nodup)
    (hres : ∀ col ∈ c.groupBy, (dget (headerMap c.fieldnames)
      ((dget (inverseColMap c.colNameMap) col).getD col)).isSome)
    (htr : "Total runtime" ∉ c.groupBy) (rows : List Row) :
    ((buildSummary pf c rows).map (fun e => outputRow c e.1 e.2)).map
      (sortKeyOf c) = (buildSummary pf c rows).map Prod.fst := by
  rw [List.map_map]
  apply List.map_congr_left
  intro e he
  have hn : ((buildSummary pf c rows).map Prod.fst).Nodup :=
    buildSummary_keys_nodup' pf c rows
  have hd := (mem_iff_dget _ hn e.1 e.2).mp he
  rw [dget_buildSummary] at hd
  have hkey : ∃ r ∈ rows, cleanedValues c r = e.1 := by
    by_cases hfe : (rows.filter
        (fun r => cleanedValues c r = e.1)).isEmpty = true
    · rw [if_pos hfe] at hd
      cases hd
    · rcases hx : rows.filter (fun x => decide (cleanedValues c x = e.1))
        with _ | ⟨r, rs⟩
      · rw [hx] at hfe
        simp at hfe
      · have hrmem : r ∈ rows.filter
            (fun x => decide (cleanedValues c x = e.1)) := by
          rw [hx]
          exact List.mem_cons_self _ _
        have hsp := List.mem_filter.mp hrmem
        exact ⟨r, hsp.1, by simpa using hsp.2⟩
  rcases hkey with ⟨r, _, hr⟩
  exact sortKeyOf_outputRow c e.1 e.2 hnd
    (by rw [← hr, cleanedValues_length c hres r]) htr

/-- The emitted, sorted rows are strictly sorted along their sort keys. -/
theorem parseSingleGrouped_strict_sorted (pf : String → Option ℚ)
    (c : STConfig) (hnd : c.groupBy.Nodup)
    (hres : ∀ col ∈ c.groupBy, (dget (headerMap c.fieldnames)
      ((dget (inverseColMap c.colNameMap) col).getD col)).isSome)
    (htr : "Total runtime" ∉ c.groupBy) (rows : List Row) :
    (((buildSummary pf c rows).map (fun e => outputRow c e.1 e.2)).mergeSort
      (fun x y => listLexLe (sortKeyOf c x) (sortKeyOf c y))).Pairwise
      (fun a b => listLexLe (sortKeyOf c a) (sortKeyOf c b) = true
        ∧ sortKeyOf c a ≠ sortKeyOf c b) := by
  have hle := List.sorted_mergeSort
    (fun a b c2 => listLexLe_trans (sortKeyOf c a) (sortKeyOf c b)
      (sortKeyOf c c2))
    (fun a b => listLexLe_total (sortKeyOf c a) (sortKeyOf c b))
    ((buildSummary pf c rows).map (fun e => outputRow c e.1 e.2))
  have hkeysnd : ((((buildSummary pf c rows).map
      (fun e => outputRow c e.1 e.2)).mergeSort
      (fun x y => listLexLe (sortKeyOf c x) (sortKeyOf c y))).map
      (sortKeyOf c)).Nodup := by
    have hpk := (List.mergeSort_perm
      ((buildSummary pf c rows).map (fun e => outputRow c e.1 e.2))
      (fun x y => listLexLe (sortKeyOf c x) (sortKeyOf c y))).map
      (sortKeyOf c)
    rw [hpk.nodup_iff, sortKeys_of_summary pf c hnd hres htr rows]
    exact buildSummary_keys_nodup' pf c rows
  exact hle.and (List.pairwise_map.mp hkeysnd)

/-- A key appears in the summary exactly when some row produces it. -/
theorem mem_summary_keys_iff (pf : String → Option ℚ) (c : STConfig)
    (rows : List Row) (k : List String) :
    k ∈ (buildSummary pf c rows).map Prod.fst ↔
      ∃ r ∈ rows, cleanedValues c r = k := by
  rw [List.mem_map]
  constructor
  · rintro ⟨p, hp, hpk⟩
    have hn := buildSummary_keys_nodup' pf c rows
    have hd := (mem_iff_dget _ hn p.1 p.2).mp hp
    rw [dget_buildSummary] at hd
    by_cases hfe : (rows.filter
        (fun r => cleanedValues c r = p.1)).isEmpty = true
    · rw [if_pos hfe] at hd
      cases hd
    · subst hpk
      rcases hx : rows.filter (fun x => decide (cleanedValues c x = p.1))
        with _ | ⟨r, rs⟩
      · rw [hx] at hfe
        simp at hfe
      · have hrmem : r ∈ rows.filter
            (fun x => decide (cleanedValues c x = p.1)) := by
          rw [hx]
          exact List.mem_cons_self _ _
        have hsp := List.mem_filter.mp hrmem
        exact ⟨r, hsp.1, by simpa using hsp.2⟩
  · rintro ⟨r, hr, hrk⟩
    have hne : ¬((rows.filter
        (fun x => cleanedValues c x = k)).isEmpty = true) := by
      intro hfe
      have hmem : r ∈ rows.filter (fun x => decide (cleanedValues c x = k)) :=
        List.mem_filter.mpr ⟨hr, by simpa using hrk⟩
      have : rows.filter (fun x => decide (cleanedValues c x = k)) = [] := by
        simpa using hfe
      rw [this] at hmem
      cases hmem
    have hd : dget (buildSummary pf c rows) k
        = some (((rows.filter (fun x => cleanedValues c x = k)).map
          (contribution pf c)).sum) := by
      rw [dget_buildSummary, if_neg hne]
    have hn := buildSummary_keys_nodup' pf c rows
    exact ⟨(k, ((rows.filter (fun x => cleanedValues c x = k)).map
        (contribution pf c)).sum),
      (mem_iff_dget _ hn k _).mpr hd, rfl⟩

/-- The sort keys of the sorted grouped output are duplicate-free. -/
theorem parseSingleGrouped_sortKeys_nodup (pf : String → Option ℚ)
    (c : STConfig) (hnd : c.groupBy.Nodup)
    (hres : ∀ col ∈ c.groupBy, (dget (headerMap c.fieldnames)
      ((dget (inverseColMap c.colNameMap) col).getD col)).isSome)
    (htr : "Total runtime" ∉ c.groupBy) (rows : List Row) :
    ((((buildSummary pf c rows).map (fun e => outputRow c e.1 e.2)).mergeSort
      (fun x y => listLexLe (sortKeyOf c x) (sortKeyOf c y))).map
      (sortKeyOf c)).Nodup := by
  have hpk := (List.mergeSort_perm
    ((buildSummary pf c rows).map (fun e => outputRow c e.1 e.2))
    (fun x y => listLexLe (sortKeyOf c x) (sortKeyOf c y))).map
    (sortKeyOf c)
  rw [hpk.nodup_iff, sortKeys_of_summary pf c hnd hres htr rows]
  exact buildSummary_keys_nodup' pf c rows

/-- The running total per key, with the implicit `0` default made explicit:
always the (order-independent) sum of the matching rows' contributions. -/
theorem getD_dget_buildSummary (pf : String → Option ℚ) (c : STConfig)
    (rows : List Row) (k : List String) :
    (dget (buildSummary pf c rows) k).getD 0
      = ((rows.filter (fun r => cleanedValues c r = k)).map
        (contribution pf c)).sum := by
  rw [dget_buildSummary]
  by_cases he : (rows.filter (fun r => cleanedValues c r = k)).isEmpty = true
  · rw [if_pos he]
    have : rows.filter (fun r => decide (cleanedValues c r = k)) = [] := by
      simpa using he
    rw [this]
    rfl
  · rw [if_neg he]
    rfl

/-! ### Claims C7, C8 and C9 -/

/-- C7 (amended): grouped aggregation is order-independent under exact
accumulation — for every input row sequence and every permutation of it,
parsing with the same non-empty group-by list (duplicate-free, with every
requested column resolving in the header and distinct from the derived
column name) and the same rename map yields an identical sorted output
sequence, provided each addition into the accumulator is exact (rational
model).  As originally stated the claim is false of the program: its IEEE
float accumulation is not associative, so permuting the input can change a
group's total — refuted below on `parseSingleGroupedFloat` with runtimes
`1e16, 1, -1e16`. -/
theorem C7_grouped_aggregation_order_independent
    (pf : String → Option ℚ) (c : STConfig) (rows1 rows2 : List Row) :
    rows1.Perm rows2 → c.groupBy ≠ [] → c.groupBy.Nodup →
    (∀ col ∈ c.groupBy, (dget (headerMap c.fieldnames)
      ((dget (inverseColMap c.colNameMap) col).getD col)).isSome) →
    "Total runtime" ∉ c.groupBy →
    parseSingleGrouped pf c rows1 = parseSingleGrouped pf c rows2 := by
  intro hperm _ hnd hres htr
  unfold parseSingleGrouped
  cases hrt : kRuntimeOf c with
  | none => rfl
  | some krt =>
    apply eq_of_perm_of_strict_sorted (sortKeyOf c)
      (fun u v => listLexLe u v = true ∧ u ≠ v)
      (fun u v h1 h2 => h1.2 (listLexLe_antisymm u v h1.1 h2.1))
    · exact (List.mergeSort_perm _ _).trans
        (((buildSummary_perm pf c hperm).map _).trans
          (List.mergeSort_perm _ _).symm)
    · exact parseSingleGrouped_strict_sorted pf c hnd hres htr rows1
    · exact parseSingleGrouped_strict_sorted pf c hnd hres htr rows2

/-- Witness for `C7_grouped_aggregation_order_independent`: swapping two
concrete rows leaves the grouped output unchanged. -/
theorem C7_grouped_aggregation_order_independent_witness :
    parseSingleGrouped (fun _ => some 1) ⟨["A", "Runtime"], [], ["A"]⟩
        [[("A", "x"), ("Runtime", "1")], [("A", "y"), ("Runtime", "2")]]
      = parseSingleGrouped (fun _ => some 1) ⟨["A", "Runtime"], [], ["A"]⟩
        [[("A", "y"), ("Runtime", "2")], [("A", "x"), ("Runtime", "1")]] :=
  C7_grouped_aggregation_order_independent (fun _ => some 1)
    ⟨["A", "Runtime"], [], ["A"]⟩
    [[("A", "x"), ("Runtime", "1")], [("A", "y"), ("Runtime", "2")]]
    [[("A", "y"), ("Runtime", "2")], [("A", "x"), ("Runtime", "1")]]
    (List.Perm.swap _ _ _) (by decide) (by decide) (by decide) (by decide)

/-! ### IEEE accumulation lemmas and the refutation of literal C7 -/

theorem roundHalfEven_intCast (n : ℤ) : roundHalfEven (n : ℚ) = n := by
  unfold roundHalfEven
  rw [Int.floor_intCast, sub_self, if_pos (by norm_num)]

theorem roundHalfEven_int_add_half_even (n : ℤ) (hn : n % 2 = 0) :
    roundHalfEven ((n : ℚ) + 1 / 2) = n := by
  unfold roundHalfEven
  have hfl : ⌊(n : ℚ) + 1 / 2⌋ = n := by
    rw [Int.floor_eq_iff]
    constructor
    · norm_num
    · norm_num
  rw [hfl]
  have h2 : (n : ℚ) + 1 / 2 - n = 1 / 2 := by ring
  rw [h2, if_neg (by norm_num), if_neg (by norm_num), if_pos hn]

/-- `10^16` is exactly representable in binary64 (its ulp is 2 and it is an
even multiple of it), so rounding it is the identity. -/
theorem flDouble_1e16 : flDouble ((10 : ℚ) ^ 16) = 10 ^ 16 := by
  unfold flDouble
  rw [if_neg (by norm_num)]
  have habs : |(10 : ℚ) ^ 16| = 10 ^ 16 := abs_of_pos (by norm_num)
  rw [habs]
  have hlog : Int.log 2 ((10 : ℚ) ^ 16) = 53 := by
    have h1 : ((10 : ℚ) ^ 16) = ((10 ^ 16 : ℕ) : ℚ) := by norm_num
    rw [h1, Int.log_natCast]
    have hb1 : (2 : ℕ) ^ 53 ≤ 10 ^ 16 := by norm_num
    have hb2 : (10 : ℕ) ^ 16 < 2 ^ (53 + 1) := by norm_num
    exact_mod_cast Nat.log_eq_of_pow_le_of_lt_pow hb1 hb2
  rw [hlog]
  rw [if_pos (by norm_num : (10 : ℚ) ^ 16 > 0)]
  have hulp : (2 : ℚ) ^ ((53 : ℤ) - 52) = 2 := by norm_num
  rw [hulp]
  have hdiv : (10 : ℚ) ^ 16 / 2 = ((5 * 10 ^ 15 : ℤ) : ℚ) := by
    push_cast
    ring
  rw [hdiv, roundHalfEven_intCast]
  push_cast
  ring

/-- `10^16 + 1` sits exactly halfway between the doubles `10^16` and
`10^16 + 2`; round half to even takes it down to `10^16` — the absorbed
addition at the heart of the counterexample. -/
theorem flDouble_1e16_add_one : flDouble ((10 : ℚ) ^ 16 + 1) = 10 ^ 16 := by
  unfold flDouble
  rw [if_neg (by norm_num)]
  have habs : |(10 : ℚ) ^ 16 + 1| = 10 ^ 16 + 1 := abs_of_pos (by norm_num)
  rw [habs]
  have hlog : Int.log 2 ((10 : ℚ) ^ 16 + 1) = 53 := by
    have h1 : ((10 : ℚ) ^ 16 + 1) = ((10 ^ 16 + 1 : ℕ) : ℚ) := by
      push_cast
      ring
    rw [h1, Int.log_natCast]
    have hb1 : (2 : ℕ) ^ 53 ≤ 10 ^ 16 + 1 := by norm_num
    have hb2 : (10 : ℕ) ^ 16 + 1 < 2 ^ (53 + 1) := by norm_num
    exact_mod_cast Nat.log_eq_of_pow_le_of_lt_pow hb1 hb2
  rw [hlog]
  rw [if_pos (by norm_num : (10 : ℚ) ^ 16 + 1 > 0)]
  have hulp : (2 : ℚ) ^ ((53 : ℤ) - 52) = 2 := by norm_num
  rw [hulp]
  have hdiv : ((10 : ℚ) ^ 16 + 1) / 2 = ((5 * 10 ^ 15 : ℤ) : ℚ) + 1 / 2 := by
    push_cast
    ring
  rw [hdiv, roundHalfEven_int_add_half_even _ (by decide)]
  push_cast
  ring

theorem flDouble_one : flDouble (1 : ℚ) = 1 := by
  unfold flDouble
  rw [if_neg (by norm_num), abs_one, Int.log_one_right]
  rw [if_pos (by norm_num : (1 : ℚ) > 0)]
  have hdiv : (1 : ℚ) / 2 ^ ((0 : ℤ) - 52) = ((2 ^ 52 : ℤ) : ℚ) := by
    norm_num
  rw [hdiv, roundHalfEven_intCast]
  norm_num

theorem fadd_zero_1e16 : fadd 0 ((10 : ℚ) ^ 16) = 10 ^ 16 := by
  unfold fadd
  rw [zero_add]
  exact flDouble_1e16

theorem fadd_1e16_one : fadd ((10 : ℚ) ^ 16) 1 = 10 ^ 16 := by
  unfold fadd
  exact flDouble_1e16_add_one

theorem fadd_1e16_neg_1e16 : fadd ((10 : ℚ) ^ 16) (-(10 ^ 16)) = 0 := by
  unfold fadd
  rw [add_neg_cancel]
  unfold flDouble
  rw [if_pos rfl]

theorem fadd_zero_one : fadd 0 (1 : ℚ) = 1 := by
  unfold fadd
  rw [zero_add]
  exact flDouble_one

theorem round6_zero : round6 0 = 0 := by
  unfold round6
  have h : (0 : ℚ) * 1000000 = ((0 : ℤ) : ℚ) := by norm_num
  rw [h, roundHalfEven_intCast]
  norm_num

theorem round6_one : round6 1 = 1 := by
  unfold round6
  have h : (1 : ℚ) * 1000000 = ((1000000 : ℤ) : ℚ) := by norm_num
  rw [h, roundHalfEven_intCast]
  norm_num

theorem dget_outputRow_total (c : STConfig) (k : List String) (t : ℚ) :
    dget (outputRow c k t) "Total runtime" = some (Val.num (round6 t)) := by
  unfold outputRow
  rw [dget_dins, if_pos rfl]

theorem stepSummaryF_nil (pf : String → Option ℚ) (c : STConfig) (row : Row) :
    stepSummaryF pf c [] row
      = [(cleanedValues c row, fadd 0 (contribution pf c row))] := rfl

theorem stepSummaryF_single (pf : String → Option ℚ) (c : STConfig)
    (k : List String) (v : ℚ) (row : Row) (hk : cleanedValues c row = k) :
    stepSummaryF pf c [(k, v)] row
      = [(k, fadd v (contribution pf c row))] := by
  unfold stepSummaryF
  rw [hk]
  have h1 : dget [(k, v)] k = some v := by
    rw [dget_cons, if_pos rfl]
  rw [h1, Option.getD_some]
  unfold dins
  rw [if_pos]
  · simp
  · simp

theorem ceKey1 : cleanedValues ⟨["A", "Runtime"], [], ["A"]⟩
    [("A", "g"), ("Runtime", "1e16")] = ["g"] := by decide

theorem ceKey2 : cleanedValues ⟨["A", "Runtime"], [], ["A"]⟩
    [("A", "g"), ("Runtime", "1")] = ["g"] := by decide

theorem ceKey3 : cleanedValues ⟨["A", "Runtime"], [], ["A"]⟩
    [("A", "g"), ("Runtime", "-1e16")] = ["g"] := by decide

theorem ceContrib1 : contribution pyFloatLit ⟨["A", "Runtime"], [], ["A"]⟩
    [("A", "g"), ("Runtime", "1e16")] = (10 : ℚ) ^ 16 := rfl

theorem ceContrib2 : contribution pyFloatLit ⟨["A", "Runtime"], [], ["A"]⟩
    [("A", "g"), ("Runtime", "1")] = 1 := rfl

theorem ceContrib3 : contribution pyFloatLit ⟨["A", "Runtime"], [], ["A"]⟩
    [("A", "g"), ("Runtime", "-1e16")] = -(10 ^ 16) := rfl

/-- The float accumulator over `1e16, 1, -1e16` (one group). -/
theorem ceSummaryA : buildSummaryF pyFloatLit ⟨["A", "Runtime"], [], ["A"]⟩
    [[("A", "g"), ("Runtime", "1e16")], [("A", "g"), ("Runtime", "1")],
      [("A", "g"), ("Runtime", "-1e16")]]
    = [(["g"], fadd (fadd (fadd 0 ((10 : ℚ) ^ 16)) 1) (-(10 ^ 16)))] := by
  unfold buildSummaryF
  rw [List.foldl_cons, stepSummaryF_nil, ceKey1, ceContrib1,
    List.foldl_cons, stepSummaryF_single _ _ _ _ _ ceKey2, ceContrib2,
    List.foldl_cons, stepSummaryF_single _ _ _ _ _ ceKey3, ceContrib3,
    List.foldl_nil]

/-- The float accumulator over `1e16, -1e16, 1` (the same multiset). -/
theorem ceSummaryB : buildSummaryF pyFloatLit ⟨["A", "Runtime"], [], ["A"]⟩
    [[("A", "g"), ("Runtime", "1e16")], [("A", "g"), ("Runtime", "-1e16")],
      [("A", "g"), ("Runtime", "1")]]
    = [(["g"], fadd (fadd (fadd 0 ((10 : ℚ) ^ 16)) (-(10 ^ 16))) 1)] := by
  unfold buildSummaryF
  rw [List.foldl_cons, stepSummaryF_nil, ceKey1, ceContrib1,
    List.foldl_cons, stepSummaryF_single _ _ _ _ _ ceKey3, ceContrib3,
    List.foldl_cons, stepSummaryF_single _ _ _ _ _ ceKey2, ceContrib2,
    List.foldl_nil]

/-- C7, as literally stated, is false of the program: under the program's
IEEE binary64 accumulation, the permuted row orders `1e16, 1, -1e16` and
`1e16, -1e16, 1` within one group give totals `0.0` and `1.0` — the `+ 1`
is absorbed when it meets `1e16` first — and the difference survives
`round(·, 6)`, so the two sorted outputs differ. -/
theorem C7_grouped_aggregation_order_independent_counterexample :
    ([[("A", "g"), ("Runtime", "1e16")], [("A", "g"), ("Runtime", "1")],
        [("A", "g"), ("Runtime", "-1e16")]] : List Row).Perm
      [[("A", "g"), ("Runtime", "1e16")], [("A", "g"), ("Runtime", "-1e16")],
        [("A", "g"), ("Runtime", "1")]]
    ∧ parseSingleGroupedFloat pyFloatLit ⟨["A", "Runtime"], [], ["A"]⟩
        [[("A", "g"), ("Runtime", "1e16")], [("A", "g"), ("Runtime", "1")],
          [("A", "g"), ("Runtime", "-1e16")]]
      ≠ parseSingleGroupedFloat pyFloatLit ⟨["A", "Runtime"], [], ["A"]⟩
        [[("A", "g"), ("Runtime", "1e16")], [("A", "g"), ("Runtime", "-1e16")],
          [("A", "g"), ("Runtime", "1")]] := by
  constructor
  · exact List.Perm.cons _ (List.Perm.swap _ _ _)
  · have htA : fadd (fadd (fadd 0 ((10 : ℚ) ^ 16)) 1) (-(10 ^ 16)) = 0 := by
      rw [fadd_zero_1e16, fadd_1e16_one, fadd_1e16_neg_1e16]
    have htB : fadd (fadd (fadd 0 ((10 : ℚ) ^ 16)) (-(10 ^ 16))) 1 = 1 := by
      rw [fadd_zero_1e16, fadd_1e16_neg_1e16, fadd_zero_one]
    have hA : parseSingleGroupedFloat pyFloatLit ⟨["A", "Runtime"], [], ["A"]⟩
        [[("A", "g"), ("Runtime", "1e16")], [("A", "g"), ("Runtime", "1")],
          [("A", "g"), ("Runtime", "-1e16")]]
        = [outputRow ⟨["A", "Runtime"], [], ["A"]⟩ ["g"] 0] := by
      show ((buildSummaryF pyFloatLit ⟨["A", "Runtime"], [], ["A"]⟩
          [[("A", "g"), ("Runtime", "1e16")], [("A", "g"), ("Runtime", "1")],
            [("A", "g"), ("Runtime", "-1e16")]]).map
          (fun e => outputRow ⟨["A", "Runtime"], [], ["A"]⟩ e.1 e.2)).mergeSort
          (fun x y => listLexLe (sortKeyOf ⟨["A", "Runtime"], [], ["A"]⟩ x)
            (sortKeyOf ⟨["A", "Runtime"], [], ["A"]⟩ y)) = _
      rw [ceSummaryA, htA, List.map_cons, List.map_nil]
      exact List.mergeSort_of_sorted (List.pairwise_singleton _ _)
    have hB : parseSingleGroupedFloat pyFloatLit ⟨["A", "Runtime"], [], ["A"]⟩
        [[("A", "g"), ("Runtime", "1e16")], [("A", "g"), ("Runtime", "-1e16")],
          [("A", "g"), ("Runtime", "1")]]
        = [outputRow ⟨["A", "Runtime"], [], ["A"]⟩ ["g"] 1] := by
      show ((buildSummaryF pyFloatLit ⟨["A", "Runtime"], [], ["A"]⟩
          [[("A", "g"), ("Runtime", "1e16")],
            [("A", "g"), ("Runtime", "-1e16")],
            [("A", "g"), ("Runtime", "1")]]).map
          (fun e => outputRow ⟨["A", "Runtime"], [], ["A"]⟩ e.1 e.2)).mergeSort
          (fun x y => listLexLe (sortKeyOf ⟨["A", "Runtime"], [], ["A"]⟩ x)
            (sortKeyOf ⟨["A", "Runtime"], [], ["A"]⟩ y)) = _
      rw [ceSummaryB, htB, List.map_cons, List.map_nil]
      exact List.mergeSort_of_sorted (List.pairwise_singleton _ _)
    intro hcontra
    rw [hA, hB] at hcontra
    have hrow : outputRow ⟨["A", "Runtime"], [], ["A"]⟩ ["g"] 0
        = outputRow ⟨["A", "Runtime"], [], ["A"]⟩ ["g"] 1 :=
      (List.cons.inj hcontra).1
    have hget := congrArg (fun r => dget r "Total runtime") hrow
    simp only [dget_outputRow_total] at hget
    have hv : round6 0 = round6 1 := Val.num.inj (Option.some.inj hget)
    rw [round6_zero, round6_one] at hv
    exact absurd hv (by norm_num)

/-- C8: with a non-empty group-by list (duplicate-free, all columns
resolving, distinct from the derived column, and a resolving Runtime
column), the parser emits exactly one output row per distinct GroupKey after
the stream ends; each output row is `outputRow` — the group-by columns'
values plus a `"Total runtime"` column holding the key's contribution sum
rounded to 6 decimal digits; and the emitted rows are sorted ascending by
the string form of the group-by column values. -/
theorem C8_grouped_emission
    (pf : String → Option ℚ) (c : STConfig) (rows : List Row) :
    c.groupBy ≠ [] → c.groupBy.Nodup →
    (∀ col ∈ c.groupBy, (dget (headerMap c.fieldnames)
      ((dget (inverseColMap c.colNameMap) col).getD col)).isSome) →
    "Total runtime" ∉ c.groupBy → (kRuntimeOf c).isSome →
    (parseSingleGrouped pf c rows).length
        = ((rows.map (cleanedValues c)).dedup).length
    ∧ ((parseSingleGrouped pf c rows).map (sortKeyOf c)).Nodup
    ∧ (∀ k, k ∈ (parseSingleGrouped pf c rows).map (sortKeyOf c)
        ↔ ∃ r ∈ rows, cleanedValues c r = k)
    ∧ (∀ row ∈ parseSingleGrouped pf c rows, ∃ k,
        (∃ r ∈ rows, cleanedValues c r = k)
        ∧ row = outputRow c k
            (((rows.filter (fun r => cleanedValues c r = k)).map
              (contribution pf c)).sum))
    ∧ (parseSingleGrouped pf c rows).Pairwise
        (fun a b => listLexLe (sortKeyOf c a) (sortKeyOf c b) = true) := by
  intro _ hnd hres htr hrt
  obtain ⟨krt, hkrt⟩ := Option.isSome_iff_exists.mp hrt
  have hout : parseSingleGrouped pf c rows
      = ((buildSummary pf c rows).map
          (fun e => outputRow c e.1 e.2)).mergeSort
        (fun x y => listLexLe (sortKeyOf c x) (sortKeyOf c y)) := by
    unfold parseSingleGrouped
    rw [hkrt]
  refine ⟨?_, ?_, ?_, ?_, ?_⟩
  · rw [hout, List.length_mergeSort, List.length_map]
    have h1 : (buildSummary pf c rows).length
        = ((buildSummary pf c rows).map Prod.fst).length := by
      rw [List.length_map]
    rw [h1]
    apply List.Perm.length_eq
    apply (List.perm_ext_iff_of_nodup (buildSummary_keys_nodup' pf c rows)
      (List.nodup_dedup _)).mpr
    intro k
    rw [mem_summary_keys_iff, List.mem_dedup, List.mem_map]
  · rw [hout]
    exact parseSingleGrouped_sortKeys_nodup pf c hnd hres htr rows
  · intro k
    rw [hout]
    have hpk := (List.mergeSort_perm
      ((buildSummary pf c rows).map (fun e => outputRow c e.1 e.2))
      (fun x y => listLexLe (sortKeyOf c x) (sortKeyOf c y))).map
      (sortKeyOf c)
    rw [hpk.mem_iff, sortKeys_of_summary pf c hnd hres htr rows,
      mem_summary_keys_iff]
  · intro row hrow
    rw [hout, List.mem_mergeSort] at hrow
    rcases List.mem_map.mp hrow with ⟨e, he, hge⟩
    refine ⟨e.1, ?_, ?_⟩
    · rw [← mem_summary_keys_iff pf c rows e.1]
      exact List.mem_map_of_mem Prod.fst he
    · have hn := buildSummary_keys_nodup' pf c rows
      have hd := (mem_iff_dget _ hn e.1 e.2).mp he
      rw [dget_buildSummary] at hd
      by_cases hfe : (rows.filter
          (fun r => cleanedValues c r = e.1)).isEmpty = true
      · rw [if_pos hfe] at hd
        cases hd
      · rw [if_neg hfe] at hd
        have hv := Option.some.inj hd
        rw [← hge, ← hv]
  · rw [hout]
    exact (parseSingleGrouped_strict_sorted pf c hnd hres htr rows).imp
      (fun h => h.1)

/-- Witness for `C8_grouped_emission`: two rows with one shared group key on
a concrete configuration. -/
theorem C8_grouped_emission_witness :
    (parseSingleGrouped (fun _ => some 1) ⟨["A", "Runtime"], [], ["A"]⟩
        [[("A", "x"), ("Runtime", "1")], [("A", "x"), ("Runtime", "2")]]).length
      = (([[("A", "x"), ("Runtime", "1")],
          [("A", "x"), ("Runtime", "2")]].map
          (cleanedValues ⟨["A", "Runtime"], [], ["A"]⟩)).dedup).length
    ∧ ((parseSingleGrouped (fun _ => some 1) ⟨["A", "Runtime"], [], ["A"]⟩
        [[("A", "x"), ("Runtime", "1")], [("A", "x"), ("Runtime", "2")]]).map
        (sortKeyOf ⟨["A", "Runtime"], [], ["A"]⟩)).Nodup
    ∧ (["x"] ∈ (parseSingleGrouped (fun _ => some 1)
          ⟨["A", "Runtime"], [], ["A"]⟩
          [[("A", "x"), ("Runtime", "1")],
            [("A", "x"), ("Runtime", "2")]]).map
          (sortKeyOf ⟨["A", "Runtime"], [], ["A"]⟩)
        ↔ ∃ r ∈ [[("A", "x"), ("Runtime", "1")],
            [("A", "x"), ("Runtime", "2")]],
          cleanedValues ⟨["A", "Runtime"], [], ["A"]⟩ r = ["x"]) := by
  have h := C8_grouped_emission (fun _ => some 1)
    ⟨["A", "Runtime"], [], ["A"]⟩
    [[("A", "x"), ("Runtime", "1")], [("A", "x"), ("Runtime", "2")]]
    (by decide) (by decide) (by decide) (by decide) (by decide)
  exact ⟨h.1, h.2.1, h.2.2.1 ["x"]⟩

/-- C9: a row whose designated `"Runtime"` field fails to parse contributes
exactly `0.0` to its group's running sum, and the aggregation continues over
the remaining rows rather than aborting — the accumulator is always the sum
of all matching rows' contributions, and inserting such a row anywhere in
the stream leaves every group's running total unchanged. -/
theorem C9_unparseable_runtime_contributes_zero :
    (∀ (pf : String → Option ℚ) (c : STConfig) (row : Row) (krt : String),
      kRuntimeOf c = some krt →
      pf (pyStrip ((dget row krt).getD "")) = none →
      contribution pf c row = 0)
    ∧ (∀ (pf : String → Option ℚ) (c : STConfig) (rows : List Row)
        (k : List String),
        (dget (buildSummary pf c rows) k).getD 0
          = ((rows.filter (fun r => cleanedValues c r = k)).map
            (contribution pf c)).sum)
    ∧ (∀ (pf : String → Option ℚ) (c : STConfig) (pre post : List Row)
        (bad : Row) (krt : String) (k : List String),
        kRuntimeOf c = some krt →
        pf (pyStrip ((dget bad krt).getD "")) = none →
        (dget (buildSummary pf c (pre ++ bad :: post)) k).getD 0
          = (dget (buildSummary pf c (pre ++ post)) k).getD 0) := by
  have hcontrib : ∀ (pf : String → Option ℚ) (c : STConfig) (row : Row)
      (krt : String), kRuntimeOf c = some krt →
      pf (pyStrip ((dget row krt).getD "")) = none →
      contribution pf c row = 0 := by
    intro pf c row krt hkrt hpf
    unfold contribution
    rw [hkrt]
    show (pf (pyStrip ((dget row krt).getD ""))).getD 0 = 0
    rw [hpf]
    rfl
  refine ⟨hcontrib, getD_dget_buildSummary, ?_⟩
  intro pf c pre post bad krt k hkrt hpf
  rw [getD_dget_buildSummary, getD_dget_buildSummary,
    List.filter_append, List.filter_append, List.filter_cons]
  by_cases hbk : cleanedValues c bad = k
  · rw [if_pos (by simpa using hbk)]
    rw [List.map_append, List.map_append, List.sum_append, List.sum_append,
      List.map_cons, List.sum_cons, hcontrib pf c bad krt hkrt hpf, zero_add]
  · rw [if_neg (by simpa using hbk)]

/-- Witness for `C9_unparseable_runtime_contributes_zero`: a concrete row
whose runtime field does not parse contributes zero, and inserting it leaves
a group total unchanged. -/
theorem C9_unparseable_runtime_contributes_zero_witness :
    contribution (fun _ => none) ⟨["A", "Runtime"], [], ["A"]⟩
        [("A", "x"), ("Runtime", "garbage")] = 0
    ∧ (dget (buildSummary (fun _ => none) ⟨["A", "Runtime"], [], ["A"]⟩
          ([[("A", "x"), ("Runtime", "1")]]
            ++ [("A", "x"), ("Runtime", "garbage")]
              :: [[("A", "y"), ("Runtime", "2")]])) ["x"]).getD 0
      = (dget (buildSummary (fun _ => none) ⟨["A", "Runtime"], [], ["A"]⟩
          ([[("A", "x"), ("Runtime", "1")]]
            ++ [[("A", "y"), ("Runtime", "2")]])) ["x"]).getD 0 :=
  ⟨C9_unparseable_runtime_contributes_zero.1 (fun _ => none)
      ⟨["A", "Runtime"], [], ["A"]⟩
      [("A", "x"), ("Runtime", "garbage")] "Runtime" (by decide) rfl,
    C9_unparseable_runtime_contributes_zero.2.2 (fun _ => none)
      ⟨["A", "Runtime"], [], ["A"]⟩
      [[("A", "x"), ("Runtime", "1")]] [[("A", "y"), ("Runtime", "2")]]
      [("A", "x"), ("Runtime", "garbage")] "Runtime" ["x"] (by decide) rfl⟩

end ToolsEtl
